import Mathlib

/-!
# csv2table: CSV to Markdown table

A shallow embedding of `src/dotc/csv2table.c` and the properties of its
line splitter, table builder and Markdown renderer.

Conventions of the embedding.

* A byte is a `Char`; a piece of memory holding text is a `List Char`.  A read
  past the end of the modelled bytes yields `NUL`: every buffer of the program
  is followed by its terminator (and `line_copy` by the padding of `strncpy`).
* A C string stored at offset `p` of a buffer is `cstr_at buf p`: the bytes
  from `p` up to the next `NUL`.
* Pointers into the line buffer are offsets (`Nat`).
* The C library calls (`fgets`, `strcspn`, `strncpy`, `strlen`, `printf`) are
  modelled after ISO C; `strdup` is assumed to succeed.
* Reading a cell `rows[r][i]` that was never stored has no defined result:
  the functions that do it return `none`.
-/

namespace Csv2Table

/-! ## Constants -/

def MAX_LINE : Nat := 4096
def MAX_COLS : Nat := 128
def MAX_ROWS : Nat := 1024

/-- The string terminator. -/
def NUL : Char := Char.ofNat 0

/-! ## Memory and C strings -/

/-- The byte at offset `p` (`*p`). -/
def load (buf : List Char) (p : Nat) : Char := buf.getD p NUL

/-- The buffer after `*p = c`. -/
def store (buf : List Char) (p : Nat) (c : Char) : List Char := buf.set p c

/-- The C string that starts at offset `p`. -/
def cstr_at (buf : List Char) (p : Nat) : List Char :=
  (buf.drop p).takeWhile (fun c => c != NUL)

/-- The C string at the start of a buffer. -/
def cstr (buf : List Char) : List Char := cstr_at buf 0

/-- Length of a C string (`strlen`), for a string already cut at its terminator. -/
def strlen (s : List Char) : Nat := s.length

/-! ## split_csv_line -/

/-- The local variables of `split_csv_line`, with the line buffer.
`cols` holds `cols[0..col-1]`, so `col = cols.length`. -/
structure Scan where
  buf : List Char
  cols : List Nat
  p : Nat
  in_quotes : Bool
deriving DecidableEq, Repr

/-- The `while (*p && col < max_cols)` loop, at most `fuel` iterations. -/
def split_loop (max_cols : Nat) : Nat → Scan → Scan
  | 0, s => s
  | fuel + 1, s =>
    if load s.buf s.p != NUL && decide (s.cols.length < max_cols) then
      if load s.buf s.p == '"' then
        split_loop max_cols fuel { s with in_quotes := !s.in_quotes, p := s.p + 1 }
      else if load s.buf s.p == ',' && !s.in_quotes then
        split_loop max_cols fuel
          { s with buf := store s.buf s.p NUL, cols := s.cols ++ [s.p + 1], p := s.p + 1 }
      else
        split_loop max_cols fuel { s with p := s.p + 1 }
    else s

/-- The state in which `split_csv_line` leaves its loop: every iteration moves
`p` one byte forward and the loop ends at the terminator at the latest, so
`line.length` iterations are enough (see `split_scan_exit`). -/
def split_scan (line : List Char) (max_cols : Nat) : Scan :=
  split_loop max_cols line.length { buf := line, cols := [0], p := 0, in_quotes := false }

/-- The call `split_csv_line(line, cols, max_cols)`: the line buffer as the call
leaves it, and the pointers `cols[0..col-1]`; the returned count is their number. -/
def split_csv_line (line : List Char) (max_cols : Nat) : List Char × List Nat :=
  let s := split_scan line max_cols
  let buf :=
    if decide (s.p > 0) && (load s.buf (s.p - 1) == '\n' || load s.buf (s.p - 1) == '\r') then
      store s.buf (s.p - 1) NUL
    else s.buf
  (buf, s.cols)

/-- The field strings a caller reads through the returned pointers. -/
def fields (r : List Char × List Nat) : List (List Char) := r.2.map (cstr_at r.1)

/-- The fields of a line, as `main` obtains them. -/
def split_fields (line : List Char) (max_cols : Nat) : List (List Char) :=
  fields (split_csv_line line max_cols)

/-! ## Vocabulary of the claims about the splitter -/

/-- Number of `"` characters before position `i` of the line. -/
def quotesBefore (line : List Char) (i : Nat) : Nat := (line.take i).count '"'

/-- Position `i` holds a comma preceded by an even number of `"`. -/
def isSplitComma (line : List Char) (i : Nat) : Bool :=
  line.get? i == some ',' && quotesBefore line i % 2 == 0

/-- The positions of the splitting commas of a line, in increasing order. -/
def splitCommas (line : List Char) : List Nat :=
  (List.range line.length).filter (isSplitComma line)

/-- The text of `line` between the `k`-th and the `(k+1)`-th of the positions
`ps` (from the start of the line for `k = 0`, to its end after the last one). -/
def between (line : List Char) (ps : List Nat) (k : Nat) : List Char :=
  (line.take (ps.getD k line.length)).drop (if k = 0 then 0 else ps.getD (k - 1) 0 + 1)

/-- `c` is one of the two line terminators that `split_csv_line` trims. -/
def is_term (c : Char) : Bool := c == '\n' || c == '\r'

/-- A string without a final `\n` or `\r`. -/
def chop (f : List Char) : List Char :=
  match f.getLast? with
  | some c => if is_term c then f.dropLast else f
  | none => f

/-- Apply `g` to the last element of a list. -/
def mapLast {α : Type} (g : α → α) : List α → List α
  | [] => []
  | [x] => [g x]
  | x :: y :: xs => x :: mapLast g (y :: xs)

/-- Concatenation of strings with one separator between neighbours. -/
def joinWith (sep : Char) : List (List Char) → List Char
  | [] => []
  | [f] => f
  | f :: g :: fs => f ++ sep :: joinWith sep (g :: fs)

/-! ## Auxiliary functions for the proofs about the splitter -/

/-- Put `c` in front of the first string. -/
def consHead (c : Char) : List (List Char) → List (List Char)
  | [] => [[c]]
  | f :: fs => (c :: f) :: fs

/-- The pieces of `cs` cut at its first `k` unquoted commas, starting in quote
state `q`. -/
def splitAbs : Nat → Bool → List Char → List (List Char)
  | _, _, [] => [[]]
  | 0, _, c :: cs => [c :: cs]
  | k + 1, q, c :: cs =>
    if c = '"' then consHead c (splitAbs (k + 1) (!q) cs)
    else if c = ',' ∧ q = false then [] :: splitAbs k q cs
    else consHead c (splitAbs (k + 1) q cs)

/-- Number of bytes the loop walks over. -/
def stopAbs : Nat → Bool → List Char → Nat
  | _, _, [] => 0
  | 0, _, _ :: _ => 0
  | k + 1, q, c :: cs =>
    if c = '"' then stopAbs (k + 1) (!q) cs + 1
    else if c = ',' ∧ q = false then stopAbs k q cs + 1
    else stopAbs (k + 1) q cs + 1

/-- Start offsets of strings laid out one after the other, one byte apart. -/
def offsets : Nat → List (List Char) → List Nat
  | _, [] => []
  | base, f :: fs => base :: offsets (base + f.length + 1) fs

/-- Positions (counted from `base`) of the unquoted commas of `cs`, starting in
quote state `q`. -/
def commasFrom : Bool → Nat → List Char → List Nat
  | _, _, [] => []
  | q, base, c :: cs =>
    if c = '"' then commasFrom (!q) (base + 1) cs
    else if c = ',' ∧ q = false then base :: commasFrom q (base + 1) cs
    else commasFrom q (base + 1) cs

/-! ## C library functions -/

/-- The bytes `fgets` stores when at most `n` bytes fit before the terminator,
and the input left unread: it stops after a newline, after `n` bytes, or at
the end of the input. -/
def fgets_read : Nat → List Char → List Char × List Char
  | 0, fp => ([], fp)
  | _ + 1, [] => ([], [])
  | n + 1, c :: fp =>
    if c = '\n' then ([c], fp)
    else ((c :: (fgets_read n fp).1), (fgets_read n fp).2)

/-- The call `fgets(buf, size, fp)` on the unread input `fp`: `none` (a null
pointer) at the end of the input, otherwise the bytes stored in `buf` before
the terminator and the input left unread. -/
def fgets (size : Nat) (fp : List Char) : Option (List Char × List Char) :=
  if fp = [] then none else some (fgets_read (size - 1) fp)

/-- The call `strcspn(s, reject)`: length of the initial part of the string
holding no byte of `reject`. -/
def strcspn (s : List Char) (reject : List Char) : Nat :=
  (s.takeWhile (fun c => c != NUL && !reject.contains c)).length

/-- The string that `strncpy(dst, src, n)` leaves in `dst`; the `NUL` padding
up to `n` bytes is what a read past the end of the list yields. -/
def strncpy (src : List Char) (n : Nat) : List Char := (cstr src).take n

/-- Output of `printf(" %-*s |", width, s)`: the string, left-justified in
`width` columns, never truncated. -/
def printf_cell (width : Nat) (s : List Char) : List Char :=
  ' ' :: (s ++ List.replicate (width - s.length) ' ' ++ [' ', '|'])

/-- The string literal of 120 dashes in `print_md_sep`. -/
def dashes : List Char := List.replicate 120 '-'

/-- Output of `printf(" %.*s |", prec, dashes)`: at most `prec` bytes of the
string of dashes. -/
def printf_sep (prec : Nat) : List Char :=
  ' ' :: (dashes.take prec ++ [' ', '|'])

/-! ## The table builder -/

/-- The variables of `main` that describe the table: `rows[r]` holds, for each
row read, the strings stored in `rows[r][0..cols_count-1]`; the other cells of
the row are never written. -/
structure Table where
  ncols : Nat
  nrows : Nat
  col_width : List Nat
  rows : List (List (List Char))
deriving DecidableEq, Repr

/-- The table before the first line is read: `col_width` is all zeros. -/
def Table.init : Table :=
  { ncols := 0, nrows := 0, col_width := List.replicate MAX_COLS 0, rows := [] }

/-- The fields of one line read by `fgets`: the line is cut at its first `\r`
or `\n`, copied, and split. -/
def parse_line (line : List Char) : List (List Char) :=
  let line := store line (strcspn line ['\r', '\n']) NUL
  let line_copy := strncpy line MAX_LINE
  fields (split_csv_line line_copy MAX_COLS)

/-- The first `for` loop of the body: `col_width[i] = max(col_width[i], strlen(cols[i]))`
for each `i < cols_count`. -/
def update_widths (cols : List (List Char)) (cols_count : Nat) (col_width : List Nat) :
    List Nat :=
  (List.range cols_count).foldl
    (fun w i =>
      if strlen (cols.getD i []) > w.getD i 0 then w.set i (strlen (cols.getD i [])) else w)
    col_width

/-- The second `for` loop of the body: the copies stored in `rows[nrows][0..cols_count-1]`. -/
def store_row (cols : List (List Char)) (cols_count : Nat) : List (List Char) :=
  (List.range cols_count).map (fun i => cols.getD i [])

/-- One iteration of the reading loop, for the line `line` just read. -/
def read_row (t : Table) (line : List Char) : Table :=
  let cols := parse_line line
  let cols_count := cols.length
  { ncols := if t.nrows = 0 then cols_count else t.ncols,
    nrows := t.nrows + 1,
    col_width := update_widths cols cols_count t.col_width,
    rows := t.rows ++ [store_row cols cols_count] }

/-- The loop `while (fgets(line, sizeof(line), fp) && nrows < MAX_ROWS)`, at
most `fuel` iterations. -/
def read_loop : Nat → List Char → Table → Table
  | 0, _, t => t
  | fuel + 1, fp, t =>
    match fgets MAX_LINE fp with
    | none => t
    | some (line, rest) =>
      if t.nrows < MAX_ROWS then read_loop fuel rest (read_row t line) else t

/-- The table `main` has built when the reading loop ends.  `nrows` grows by one
in every iteration and the loop ends when it reaches `MAX_ROWS`, so
`MAX_ROWS + 1` iterations are never exceeded (see `read_loop_fuel`). -/
def read_table (fp : List Char) : Table := read_loop (MAX_ROWS + 1) fp Table.init

/-! ## The Markdown renderer -/

/-- The cells printed by the loop of `print_md_row` for the column indices
listed; `none` when `cols[i]` was never stored. -/
def print_cells (cols : List (List Char)) (col_width : List Nat) : List Nat → Option (List Char)
  | [] => some []
  | i :: is =>
    match cols.get? i, print_cells cols col_width is with
    | some s, some out => some (printf_cell (col_width.getD i 0) s ++ out)
    | _, _ => none

/-- Output of `print_md_row(cols, ncols, col_width)`. -/
def print_md_row (cols : List (List Char)) (ncols : Nat) (col_width : List Nat) :
    Option (List Char) :=
  (print_cells cols col_width (List.range ncols)).map (fun out => '|' :: (out ++ ['\n']))

/-- Output of `print_md_sep(ncols, col_width)`. -/
def print_md_sep (ncols : Nat) (col_width : List Nat) : List Char :=
  '|' :: (((List.range ncols).map (fun i => printf_sep (col_width.getD i 0))).flatten ++ ['\n'])

/-- Output of the loop over the body rows `r` listed. -/
def print_body (t : Table) : List Nat → Option (List Char)
  | [] => some []
  | r :: rs =>
    match print_md_row (t.rows.getD r []) t.ncols t.col_width, print_body t rs with
    | some line, some out => some (line ++ out)
    | _, _ => none

/-- Output of the `if (nrows > 0)` block of `main`. -/
def print_table (t : Table) : Option (List Char) :=
  if t.nrows > 0 then
    match print_md_row (t.rows.getD 0 []) t.ncols t.col_width,
        print_body t (List.range' 1 (t.nrows - 1)) with
    | some header, some body => some (header ++ print_md_sep t.ncols t.col_width ++ body)
    | _, _ => none
  else some []

/-- The cells `rows[r][c]` passed to `free` by the last loop of `main`, in
order; `none` when one of them was never stored. -/
def free_rows (t : Table) : Option (List (Nat × Nat)) :=
  let cells := (List.range t.nrows).flatMap (fun r => (List.range t.ncols).map (fun c => (r, c)))
  if cells.all (fun rc => ((t.rows.getD rc.1 []).get? rc.2).isSome) then some cells else none

/-! ## main -/

/-- What a run of the program leaves behind. -/
structure Outcome where
  status : Nat
  stdout : List Char
  diagnostic : Bool
deriving DecidableEq, Repr

/-- The program from the point where the input is open. -/
def run (fp : List Char) : Option Outcome :=
  let t := read_table fp
  match print_table t, free_rows t with
  | some out, some _ => some { status := 0, stdout := out, diagnostic := false }
  | _, _ => none

/-- The program: `argv` are the arguments (`argc` their number), `fopen` tells
which paths can be opened for reading and with what content, `stdin` is the
standard input.  The result is `none` when the run reads a cell that was
never stored. -/
def main (argv : List String) (fopen : String → Option (List Char)) (stdin : List Char) :
    Option Outcome :=
  if argv.length > 1 then
    match fopen (argv.getD 1 "") with
    | none => some { status := 1, stdout := [], diagnostic := true }
    | some fp => run fp
  else run stdin

/-! ## Vocabulary of the claims about the whole program -/

/-- The lines of a text: each runs up to and including its `\n`; the last one
may lack it. -/
def input_lines : List Char → List (List Char)
  | [] => []
  | c :: cs =>
    if c = '\n' then [c] :: input_lines cs
    else
      match input_lines cs with
      | [] => [[c]]
      | l :: ls => (c :: l) :: ls

/-- Largest length of a field at index `i` among the rows that have one. -/
def max_field_length (rows : List (List (List Char))) (i : Nat) : Nat :=
  ((rows.filterMap (fun r => r.get? i)).map List.length).foldr max 0

/-- The cell of a header or body line for field `s` in a column of width `w`. -/
def cell (w : Nat) (s : List Char) : List Char :=
  [' '] ++ s ++ List.replicate (w - s.length) ' ' ++ [' ', '|']

/-- A header or body line for `row`: the cells of columns `0..ncols-1` after a
leading bar, then a newline. -/
def row_line (ncols : Nat) (col_width : List Nat) (row : List (List Char)) : List Char :=
  ['|'] ++ ((List.range ncols).map
    (fun i => cell (col_width.getD i 0) (row.getD i []))).flatten ++ ['\n']

/-- The lines printed for a table none of whose rows is shorter than the first. -/
def table_lines (t : Table) : List (List Char) :=
  match t.rows with
  | [] => []
  | r0 :: rest =>
    row_line t.ncols t.col_width r0 :: print_md_sep t.ncols t.col_width
      :: rest.map (row_line t.ncols t.col_width)

/-- Number of `"` characters in a list of fields. -/
def quoteCount (fs : List (List Char)) : Nat := (fs.map (List.count '"')).sum

/-- The input the program reads: the file named by the first argument when
there is one and it can be opened, the standard input when there is no
argument; `none` when the named file cannot be opened. -/
def opened_input (argv : List String) (fopen : String → Option (List Char))
    (stdin : List Char) : Option (List Char) :=
  if argv.length > 1 then fopen (argv.getD 1 "") else some stdin

/-- The lookup `rows[r][i]`: `none` when that cell was never stored. -/
def lookup (t : Table) (r i : Nat) : Option (List Char) := (t.rows.getD r []).get? i

/-- The cells `rows[r][i]` read by the `if (nrows > 0)` block of `main`: those
of row 0 for the header, then those of rows `1..nrows-1`, each for `i < ncols`. -/
def rendered_cells (t : Table) : List (Nat × Nat) :=
  if t.nrows > 0 then
    (0 :: List.range' 1 (t.nrows - 1)).flatMap
      (fun r => (List.range t.ncols).map (fun i => (r, i)))
  else []

/-- The cells `rows[r][i]` written by the reading loop: one for each field of
each row read. -/
def stored_cells (t : Table) : List (Nat × Nat) :=
  (List.range t.nrows).flatMap
    (fun r => (List.range (t.rows.getD r []).length).map (fun i => (r, i)))

/-- The cells `rows[r][c]` passed to `free` by the last loop of `main`, in order. -/
def freed_cells (t : Table) : List (Nat × Nat) :=
  (List.range t.nrows).flatMap (fun r => (List.range t.ncols).map (fun c => (r, c)))

/-- The body of the reading loop from the point where the line is split into
the fields `cols`. -/
def add_row (t : Table) (cols : List (List Char)) : Table :=
  { ncols := if t.nrows = 0 then cols.length else t.ncols,
    nrows := t.nrows + 1,
    col_width := update_widths cols cols.length t.col_width,
    rows := t.rows ++ [store_row cols cols.length] }

/-- The table the reading loop builds when the lines read split into the given
rows of fields. -/
def table_of_rows (rows : List (List (List Char))) : Table :=
  rows.foldl add_row Table.init

/-- Number of characters of a line before its newline. -/
def line_length (l : List Char) : Nat := (l.takeWhile (fun c => c != '\n')).length

/-- An input of 1024 lines: `a,` followed by 4093 letters `b` (4095 characters
before the newline), then 1022 empty lines, then the line `zz`. -/
def unread_last_line_input : List Char :=
  ('a' :: ',' :: List.replicate 4093 'b') ++ '\n' :: (List.replicate 1022 '\n' ++ ['z', 'z', '\n'])

/-! ## Further auxiliary functions for the proofs -/

/-- The bytes of a line up to its first `NUL`, `\r` or `\n`. -/
def cut (line : List Char) : List Char :=
  line.takeWhile (fun c => c != NUL && !(['\r', '\n'].contains c))

/-- The successive results of `fgets` on an input, at most `n` of them. -/
def read_chunks : Nat → List Char → List (List Char)
  | 0, _ => []
  | n + 1, fp =>
    match fgets MAX_LINE fp with
    | none => []
    | some (line, rest) => line :: read_chunks n rest

/-! ## Memory lemmas -/

theorem quote_ne_NUL : '"' ≠ NUL := by decide
theorem comma_ne_NUL : ',' ≠ NUL := by decide
theorem comma_ne_quote : ',' ≠ '"' := by decide

theorem load_append (pre : List Char) (c : Char) (rest : List Char) :
    load (pre ++ c :: rest) pre.length = c := by
  unfold load
  rw [List.getD_eq_getElem?_getD, List.getElem?_append_right (Nat.le_refl _)]
  simp

theorem load_end (pre : List Char) : load pre pre.length = NUL := by
  simp [load, List.getD_eq_getElem?_getD]

theorem store_append (pre : List Char) (c d : Char) (rest : List Char) :
    store (pre ++ c :: rest) pre.length d = pre ++ d :: rest := by
  simp [store, List.set_append]

theorem consHead_ne_nil (c : Char) (F : List (List Char)) : consHead c F ≠ [] := by
  cases F <;> simp [consHead]

theorem splitAbs_ne_nil (k : Nat) (q : Bool) (cs : List Char) : splitAbs k q cs ≠ [] := by
  induction cs generalizing k q with
  | nil => cases k <;> simp [splitAbs]
  | cons c cs ih =>
    cases k with
    | zero => simp [splitAbs]
    | succ k =>
      simp only [splitAbs]
      split_ifs <;> simp [consHead_ne_nil]

theorem joinWith_consHead (sep c : Char) (F : List (List Char)) :
    joinWith sep (consHead c F) = c :: joinWith sep F := by
  match F with
  | [] => simp [consHead, joinWith]
  | [f] => simp [consHead, joinWith]
  | f :: g :: fs => simp [consHead, joinWith]

theorem joinWith_nil_cons (sep : Char) (F : List (List Char)) (hF : F ≠ []) :
    joinWith sep ([] :: F) = sep :: joinWith sep F := by
  match F, hF with
  | f :: fs, _ => simp [joinWith]

theorem offsets_tail_consHead (base : Nat) (c : Char) (F : List (List Char)) (hF : F ≠ []) :
    (offsets base (consHead c F)).tail = (offsets (base + 1) F).tail := by
  match F, hF with
  | f :: fs, _ =>
    simp only [consHead, offsets, List.tail_cons, List.length_cons]
    congr 1
    omega

/-- The loop of `split_csv_line`, started anywhere in a line, in closed form. -/
theorem split_loop_eq (max_cols : Nat) (rest : List Char) :
    ∀ (pre : List Char) (cols : List Nat) (q : Bool) (fuel : Nat),
      NUL ∉ rest → rest.length ≤ fuel →
      (split_loop max_cols fuel ⟨pre ++ rest, cols, pre.length, q⟩).buf
          = pre ++ joinWith NUL (splitAbs (max_cols - cols.length) q rest) ∧
      (split_loop max_cols fuel ⟨pre ++ rest, cols, pre.length, q⟩).cols
          = cols ++ (offsets pre.length (splitAbs (max_cols - cols.length) q rest)).tail ∧
      (split_loop max_cols fuel ⟨pre ++ rest, cols, pre.length, q⟩).p
          = pre.length + stopAbs (max_cols - cols.length) q rest := by
  induction rest with
  | nil =>
    intro pre cols q fuel _ _
    have h0 : split_loop max_cols fuel ⟨pre ++ [], cols, pre.length, q⟩
        = ⟨pre ++ [], cols, pre.length, q⟩ := by
      cases fuel with
      | zero => rfl
      | succ n => simp [split_loop, load_end]
    rw [h0]
    cases h : max_cols - cols.length <;> simp [splitAbs, stopAbs, joinWith, offsets]
  | cons c cs ih =>
    intro pre cols q fuel hnul hfuel
    have hc : c ≠ NUL := fun h => hnul (by simp [h])
    have hcs : NUL ∉ cs := fun h => hnul (by simp [h])
    obtain ⟨n, rfl⟩ : ∃ n, fuel = n + 1 := ⟨fuel - 1, by simp at hfuel; omega⟩
    have hn : cs.length ≤ n := by simpa using hfuel
    have happ : pre ++ c :: cs = (pre ++ [c]) ++ cs := by simp
    by_cases hlt : cols.length < max_cols
    · obtain ⟨k, hk⟩ : ∃ k, max_cols - cols.length = k + 1 :=
        ⟨max_cols - cols.length - 1, by omega⟩
      by_cases hq : c = '"'
      · subst hq
        have hstep : split_loop max_cols (n + 1) ⟨pre ++ '"' :: cs, cols, pre.length, q⟩
            = split_loop max_cols n ⟨(pre ++ ['"']) ++ cs, cols, (pre ++ ['"']).length, !q⟩ := by
          simp [split_loop, load_append, quote_ne_NUL, hlt]
        rw [hstep]
        obtain ⟨h1, h2, h3⟩ := ih (pre ++ ['"']) cols (!q) n hcs hn
        rw [h1, h2, h3, hk]
        simp only [splitAbs, stopAbs, if_true, joinWith_consHead]
        refine ⟨by simp, ?_, by simp; omega⟩
        rw [offsets_tail_consHead _ _ _ (splitAbs_ne_nil _ _ _)]
        simp
      · by_cases hcomma : c = ',' ∧ q = false
        · obtain ⟨hc1, hq1⟩ := hcomma
          subst hq1
          subst hc1
          have hstep : split_loop max_cols (n + 1) ⟨pre ++ ',' :: cs, cols, pre.length, false⟩
              = split_loop max_cols n
                  ⟨(pre ++ [NUL]) ++ cs, cols ++ [pre.length + 1], (pre ++ [NUL]).length, false⟩ := by
            simp [split_loop, load_append, store_append, comma_ne_NUL, comma_ne_quote, hlt]
          rw [hstep]
          obtain ⟨h1, h2, h3⟩ := ih (pre ++ [NUL]) (cols ++ [pre.length + 1]) false n hcs hn
          rw [h1, h2, h3]
          have hk2 : max_cols - (cols ++ [pre.length + 1]).length = k := by
            simp; omega
          rw [hk, hk2]
          simp only [splitAbs, stopAbs, comma_ne_quote, if_false, and_self, if_true]
          rw [joinWith_nil_cons _ _ (splitAbs_ne_nil _ _ _)]
          refine ⟨by simp, ?_, by simp; omega⟩
          cases hF : splitAbs k false cs with
          | nil => exact absurd hF (splitAbs_ne_nil _ _ _)
          | cons f fs => simp [offsets]
        · have hstep : split_loop max_cols (n + 1) ⟨pre ++ c :: cs, cols, pre.length, q⟩
              = split_loop max_cols n ⟨(pre ++ [c]) ++ cs, cols, (pre ++ [c]).length, q⟩ := by
            have : ¬ (c = ',' ∧ q = false) := hcomma
            simp only [split_loop, load_append]
            simp [hc, hlt, hq]
            intro h1 h2
            exact absurd ⟨h1, h2⟩ this
          rw [hstep]
          obtain ⟨h1, h2, h3⟩ := ih (pre ++ [c]) cols q n hcs hn
          rw [h1, h2, h3, hk]
          simp only [splitAbs, stopAbs, hq, if_false, hcomma, joinWith_consHead]
          refine ⟨by simp, ?_, by simp; omega⟩
          rw [offsets_tail_consHead _ _ _ (splitAbs_ne_nil _ _ _)]
          simp
    · have hk : max_cols - cols.length = 0 := by omega
      have hstep : split_loop max_cols (n + 1) ⟨pre ++ c :: cs, cols, pre.length, q⟩
          = ⟨pre ++ c :: cs, cols, pre.length, q⟩ := by
        simp [split_loop, hlt]
      rw [hstep, hk]
      simp [splitAbs, stopAbs, joinWith, offsets]


/-! ## Strings laid out in a buffer -/

theorem NUL_not_term : is_term NUL = false := by decide

theorem cstr_at_append (pre f suf : List Char) (hf : NUL ∉ f)
    (hs : suf = [] ∨ suf.head? = some NUL) :
    cstr_at (pre ++ f ++ suf) pre.length = f := by
  have hall : ∀ a ∈ f, (fun c => c != NUL) a = true := by
    intro a ha
    have : a ≠ NUL := fun h => hf (h ▸ ha)
    simpa using this
  have hsuf : suf.takeWhile (fun c => c != NUL) = [] := by
    rcases hs with rfl | h
    · rfl
    · cases suf with
      | nil => rfl
      | cons a t =>
        simp at h
        subst h
        simp [List.takeWhile]
  unfold cstr_at
  rw [List.append_assoc, List.drop_left, List.takeWhile_append_of_pos hall, hsuf]
  simp

theorem joinWith_cons (sep : Char) (f : List Char) (F : List (List Char)) (hF : F ≠ []) :
    joinWith sep (f :: F) = f ++ sep :: joinWith sep F := by
  match F, hF with
  | g :: fs, _ => simp [joinWith]

theorem map_cstr_at_offsets (F : List (List Char)) :
    ∀ (pre suf : List Char), F ≠ [] → (∀ f ∈ F, NUL ∉ f) →
      (suf = [] ∨ suf.head? = some NUL) →
      (offsets pre.length F).map (cstr_at (pre ++ joinWith NUL F ++ suf)) = F := by
  induction F with
  | nil => intro _ _ h; exact absurd rfl h
  | cons f F ih =>
    intro pre suf _ hnul hs
    have hf : NUL ∉ f := hnul f (by simp)
    by_cases hF : F = []
    · subst hF
      have := cstr_at_append pre f suf hf hs
      simp only [List.append_assoc] at this
      simp [offsets, joinWith, this]
    · rw [joinWith_cons _ _ _ hF]
      simp only [offsets, List.map_cons]
      have h1 : cstr_at (pre ++ (f ++ NUL :: joinWith NUL F) ++ suf) pre.length = f := by
        have := cstr_at_append pre f (NUL :: joinWith NUL F ++ suf) hf (Or.inr (by simp))
        simpa using this
      have h2 := ih (pre ++ f ++ [NUL]) suf hF (fun g hg => hnul g (by simp [hg])) hs
      rw [h1]
      congr 1
      have e1 : (pre ++ f ++ [NUL]).length = pre.length + f.length + 1 := by
        simp only [List.length_append, List.length_singleton]
      have e2 : pre ++ f ++ [NUL] ++ joinWith NUL F ++ suf
          = pre ++ (f ++ NUL :: joinWith NUL F) ++ suf := by simp
      rw [e1, e2] at h2
      exact h2

theorem joinWith_append_last (sep t : Char) (g : List Char) (F : List (List Char)) :
    joinWith sep (F ++ [g ++ [t]]) = joinWith sep (F ++ [g]) ++ [t] := by
  induction F with
  | nil => simp [joinWith]
  | cons f F ih =>
    rw [List.cons_append, List.cons_append, joinWith_cons _ _ _ (by simp),
      joinWith_cons _ _ _ (by simp), ih]
    simp

theorem joinWith_append_nil (sep : Char) (F : List (List Char)) (hF : F ≠ []) :
    joinWith sep (F ++ [[]]) = joinWith sep F ++ [sep] := by
  induction F with
  | nil => exact absurd rfl hF
  | cons f F ih =>
    by_cases h : F = []
    · subst h
      simp [joinWith]
    · rw [List.cons_append, joinWith_cons _ _ _ (by simp), joinWith_cons _ _ _ h, ih h]
      simp

theorem offsets_append_last (F : List (List Char)) (x y : List Char) :
    ∀ base, offsets base (F ++ [x]) = offsets base (F ++ [y]) := by
  induction F with
  | nil => intro base; simp [offsets]
  | cons f F ih => intro base; simp [offsets, ih]

theorem mapLast_append_singleton {α : Type} (g : α → α) (F : List α) (x : α) :
    mapLast g (F ++ [x]) = F ++ [g x] := by
  induction F with
  | nil => simp [mapLast]
  | cons f F ih =>
    cases F with
    | nil => simp [mapLast]
    | cons f2 F2 =>
      simp only [List.cons_append, mapLast]
      simpa using ih

/-! ## The abstract splitter -/

theorem length_consHead (c : Char) (F : List (List Char)) (hF : F ≠ []) :
    (consHead c F).length = F.length := by
  match F, hF with
  | f :: fs, _ => simp [consHead]

theorem length_splitAbs_le (k : Nat) (q : Bool) (cs : List Char) :
    (splitAbs k q cs).length ≤ k + 1 := by
  induction cs generalizing k q with
  | nil => cases k <;> simp [splitAbs]
  | cons c cs ih =>
    cases k with
    | zero => simp [splitAbs]
    | succ k =>
      simp only [splitAbs]
      split_ifs
      · rw [length_consHead _ _ (splitAbs_ne_nil _ _ _)]; exact ih _ _
      · simp; exact ih _ _
      · rw [length_consHead _ _ (splitAbs_ne_nil _ _ _)]; exact ih _ _

theorem length_splitAbs_pos (k : Nat) (q : Bool) (cs : List Char) :
    1 ≤ (splitAbs k q cs).length :=
  List.length_pos.mpr (splitAbs_ne_nil k q cs)

theorem joinWith_splitAbs (k : Nat) (q : Bool) (cs : List Char) :
    joinWith ',' (splitAbs k q cs) = cs := by
  induction cs generalizing k q with
  | nil => cases k <;> simp [splitAbs, joinWith]
  | cons c cs ih =>
    cases k with
    | zero => simp [splitAbs, joinWith]
    | succ k =>
      simp only [splitAbs]
      split_ifs with h1 h2
      · rw [joinWith_consHead, ih]
      · rw [joinWith_nil_cons _ _ (splitAbs_ne_nil _ _ _), ih, h2.1]
      · rw [joinWith_consHead, ih]

theorem mem_consHead {c : Char} {F : List (List Char)} {f : List Char}
    (h : f ∈ consHead c F) : (∃ g, f = c :: g ∧ (g ∈ F ∨ (F = [] ∧ g = []))) ∨ f ∈ F := by
  match F with
  | [] => simp [consHead] at h; exact Or.inl ⟨[], by simp [h]⟩
  | g :: fs =>
    simp [consHead] at h
    rcases h with h | h
    · exact Or.inl ⟨g, h, Or.inl (by simp)⟩
    · exact Or.inr (by simp [h])

/-- Every character of a field is a character of the line. -/
theorem mem_splitAbs (k : Nat) (q : Bool) (cs : List Char) :
    ∀ f ∈ splitAbs k q cs, ∀ a ∈ f, a ∈ cs := by
  induction cs generalizing k q with
  | nil => cases k <;> simp [splitAbs]
  | cons c cs ih =>
    cases k with
    | zero => simp [splitAbs]
    | succ k =>
      have hcons : ∀ (F : List (List Char)), (∀ f ∈ F, ∀ a ∈ f, a ∈ cs) →
          ∀ f ∈ consHead c F, ∀ a ∈ f, a ∈ c :: cs := by
        intro F hF f hf a ha
        rcases mem_consHead hf with ⟨g, rfl, hg⟩ | hf
        · rcases List.mem_cons.mp ha with rfl | ha
          · simp
          · rcases hg with hg | ⟨_, rfl⟩
            · exact List.mem_cons_of_mem _ (hF g hg a ha)
            · simp at ha
        · exact List.mem_cons_of_mem _ (hF f hf a ha)
      simp only [splitAbs]
      split_ifs
      · exact hcons _ (ih _ _)
      · intro f hf a ha
        rcases List.mem_cons.mp hf with rfl | hf
        · simp at ha
        · exact List.mem_cons_of_mem _ (ih _ _ f hf a ha)
      · exact hcons _ (ih _ _)

theorem stopAbs_of_length_le (k : Nat) (q : Bool) (cs : List Char)
    (h : (splitAbs k q cs).length ≤ k) : stopAbs k q cs = cs.length := by
  induction cs generalizing k q with
  | nil => cases k <;> simp [stopAbs]
  | cons c cs ih =>
    cases k with
    | zero => simp [splitAbs] at h
    | succ k =>
      simp only [splitAbs] at h
      simp only [stopAbs]
      split_ifs at h ⊢
      · rw [length_consHead _ _ (splitAbs_ne_nil _ _ _)] at h
        simp [ih _ _ h]
      · simp at h
        simp [ih _ _ h]
      · rw [length_consHead _ _ (splitAbs_ne_nil _ _ _)] at h
        simp [ih _ _ h]

theorem stopAbs_of_lt_length (k : Nat) (q : Bool) (cs : List Char)
    (h : k < (splitAbs k q cs).length) :
    (k = 0 ∧ stopAbs k q cs = 0) ∨
      (1 ≤ stopAbs k q cs ∧ load (joinWith NUL (splitAbs k q cs)) (stopAbs k q cs - 1) = NUL) := by
  induction cs generalizing k q with
  | nil =>
    cases k with
    | zero => simp [stopAbs]
    | succ k => simp [splitAbs] at h
  | cons c cs ih =>
    cases k with
    | zero => simp [stopAbs]
    | succ k =>
      have hcons : ∀ q2, k + 1 < (splitAbs (k + 1) q2 cs).length →
          1 ≤ stopAbs (k + 1) q2 cs + 1 ∧
            load (c :: joinWith NUL (splitAbs (k + 1) q2 cs)) (stopAbs (k + 1) q2 cs + 1 - 1)
              = NUL := by
        intro q2 h2
        rcases ih _ _ h2 with ⟨h0, _⟩ | ⟨h1, h3⟩
        · omega
        · refine ⟨by omega, ?_⟩
          obtain ⟨m, hm⟩ : ∃ m, stopAbs (k + 1) q2 cs = m + 1 := ⟨_, (Nat.sub_add_cancel h1).symm⟩
          rw [hm] at h3 ⊢
          simpa [load] using h3
      right
      simp only [splitAbs] at h
      simp only [splitAbs, stopAbs]
      split_ifs at h ⊢
      · rw [length_consHead _ _ (splitAbs_ne_nil _ _ _)] at h
        rw [joinWith_consHead]
        exact hcons _ h
      · simp at h
        rw [joinWith_nil_cons _ _ (splitAbs_ne_nil _ _ _)]
        rcases ih _ _ h with ⟨h0, h1⟩ | ⟨h1, h3⟩
        · simp [h1, load]
        · refine ⟨by omega, ?_⟩
          obtain ⟨m, hm⟩ : ∃ m, stopAbs k q cs = m + 1 := ⟨_, (Nat.sub_add_cancel h1).symm⟩
          rw [hm] at h3 ⊢
          simpa [load] using h3
      · rw [length_consHead _ _ (splitAbs_ne_nil _ _ _)] at h
        rw [joinWith_consHead]
        exact hcons _ h

theorem length_joinWith_splitAbs (k : Nat) (q : Bool) (cs : List Char) :
    (joinWith NUL (splitAbs k q cs)).length = cs.length := by
  induction cs generalizing k q with
  | nil => cases k <;> simp [splitAbs, joinWith]
  | cons c cs ih =>
    cases k with
    | zero => simp [splitAbs, joinWith]
    | succ k =>
      simp only [splitAbs]
      split_ifs
      · rw [joinWith_consHead]; simp [ih]
      · rw [joinWith_nil_cons _ _ (splitAbs_ne_nil _ _ _)]; simp [ih]
      · rw [joinWith_consHead]; simp [ih]


/-! ## The fields returned by split_csv_line -/

theorem split_scan_eq (line : List Char) (max_cols : Nat) (h : NUL ∉ line) :
    (split_scan line max_cols).buf = joinWith NUL (splitAbs (max_cols - 1) false line) ∧
    (split_scan line max_cols).cols = offsets 0 (splitAbs (max_cols - 1) false line) ∧
    (split_scan line max_cols).p = stopAbs (max_cols - 1) false line := by
  have := split_loop_eq max_cols line [] [0] false line.length h (Nat.le_refl _)
  simp only [List.nil_append, List.length_nil, List.length_singleton, Nat.zero_add] at this
  obtain ⟨h1, h2, h3⟩ := this
  refine ⟨h1, ?_, h3⟩
  unfold split_scan
  rw [h2]
  cases hF : splitAbs (max_cols - 1) false line with
  | nil => exact absurd hF (splitAbs_ne_nil _ _ _)
  | cons f fs => simp [offsets]

theorem chop_nil : chop [] = [] := rfl

theorem chop_concat (g : List Char) (t : Char) :
    chop (g ++ [t]) = if is_term t then g else g ++ [t] := by
  simp [chop]

/-- The fields of a line in closed form: the pieces cut at the first
`max_cols - 1` unquoted commas, the last one chopped when the scan reached the
end of the line. -/
theorem split_fields_eq (line : List Char) (max_cols : Nat) (h : NUL ∉ line) :
    split_fields line max_cols =
      if (splitAbs (max_cols - 1) false line).length < max_cols then
        mapLast chop (splitAbs (max_cols - 1) false line)
      else splitAbs (max_cols - 1) false line := by
  obtain ⟨hb, hc, hp⟩ := split_scan_eq line max_cols h
  have hnul : ∀ f ∈ splitAbs (max_cols - 1) false line, NUL ∉ f :=
    fun f hf hn => h (mem_splitAbs _ _ _ f hf _ hn)
  have hne := splitAbs_ne_nil (max_cols - 1) false line
  have hlen := length_joinWith_splitAbs (max_cols - 1) false line
  have hA : ∀ (F : List (List Char)) (suf : List Char), F ≠ [] → (∀ f ∈ F, NUL ∉ f) →
      (suf = [] ∨ suf.head? = some NUL) →
      (offsets 0 F).map (cstr_at (joinWith NUL F ++ suf)) = F := by
    intro F suf h1 h2 h3
    simpa using map_cstr_at_offsets F [] suf h1 h2 h3
  unfold split_fields fields split_csv_line
  simp only [hb, hc, hp]
  generalize hFdef : splitAbs (max_cols - 1) false line = F at *
  by_cases hlt : F.length < max_cols
  · rw [if_pos hlt]
    have hstop : stopAbs (max_cols - 1) false line = line.length := by
      apply stopAbs_of_length_le
      rw [hFdef]; omega
    rw [hstop]
    obtain ⟨Fi, last, rfl⟩ : ∃ Fi last, F = Fi ++ [last] :=
      ⟨F.dropLast, F.getLast hne, (List.dropLast_append_getLast hne).symm⟩
    rw [mapLast_append_singleton]
    rcases List.eq_nil_or_concat last with rfl | ⟨g, t, rfl⟩
    · rw [chop_nil]
      have hno : (decide (line.length > 0) &&
          (load (joinWith NUL (Fi ++ [[]])) (line.length - 1) == '\n' ||
            load (joinWith NUL (Fi ++ [[]])) (line.length - 1) == '\r')) = false := by
        by_cases hFi : Fi = []
        · subst hFi
          simp [joinWith] at hlen
          simp [← hlen]
        · rw [joinWith_append_nil _ _ hFi] at hlen ⊢
          have : line.length - 1 = (joinWith NUL Fi).length := by
            simp at hlen; omega
          rw [this, load_append]
          have := NUL_not_term
          simp [is_term] at this
          simp [this]
      rw [hno]
      simpa using hA (Fi ++ [[]]) [] hne hnul (Or.inl rfl)
    · simp only [List.concat_eq_append] at hFdef hb hc hnul hne hlen hlt ⊢
      rw [chop_concat]
      have hnul2 : ∀ f ∈ Fi ++ [g], NUL ∉ f := by
        intro f hf
        rcases List.mem_append.mp hf with hf | hf
        · exact hnul f (List.mem_append_left _ hf)
        · simp at hf
          subst hf
          intro hn
          exact hnul (f ++ [t]) (by simp) (by simp [hn])
      rw [joinWith_append_last] at hlen ⊢
      have hidx : line.length - 1 = (joinWith NUL (Fi ++ [g])).length := by
        simp at hlen; omega
      have hpos : line.length > 0 := by simp at hlen; omega
      rw [hidx, load_append, store_append]
      by_cases ht : is_term t = true
      · have ht2 : (t == '\n' || t == '\r') = true := ht
        simp only [hpos, decide_True, Bool.true_and, ht2, if_true, ht]
        rw [offsets_append_last Fi (g ++ [t]) g]
        exact hA (Fi ++ [g]) [NUL] (by simp) hnul2 (Or.inr rfl)
      · have ht2 : (t == '\n' || t == '\r') = false := by simpa [is_term] using ht
        simp only [ht2, Bool.and_false, if_false, ht]
        have := hA (Fi ++ [g ++ [t]]) [] hne hnul (Or.inl rfl)
        rw [joinWith_append_last] at this
        simpa using this
  · rw [if_neg hlt]
    have hk : max_cols - 1 < F.length := by
      have := List.length_pos.mpr hne
      omega
    have hno : (decide (stopAbs (max_cols - 1) false line > 0) &&
        (load (joinWith NUL F) (stopAbs (max_cols - 1) false line - 1) == '\n' ||
          load (joinWith NUL F) (stopAbs (max_cols - 1) false line - 1) == '\r')) = false := by
      rcases stopAbs_of_lt_length (max_cols - 1) false line (by rw [hFdef]; exact hk) with
        ⟨_, h0⟩ | ⟨_, h1⟩
      · simp [h0]
      · rw [hFdef] at h1
        rw [h1]
        have := NUL_not_term
        simp [is_term] at this
        simp [this]
    rw [hno]
    simpa using hA F [] hne hnul (Or.inl rfl)


/-! ## Splitting commas -/

theorem commasFrom_shift (cs : List Char) :
    ∀ (q : Bool) (base : Nat),
      commasFrom q (base + 1) cs = (commasFrom q base cs).map (· + 1) := by
  induction cs with
  | nil => intro q base; simp [commasFrom]
  | cons c cs ih =>
    intro q base
    simp only [commasFrom]
    split_ifs
    · exact ih _ _
    · simp [ih]
    · exact ih _ _

theorem filter_range_eq_commasFrom (cs : List Char) :
    ∀ (pre : List Char),
      (List.range' pre.length cs.length).filter (isSplitComma (pre ++ cs))
        = commasFrom (decide (pre.count '"' % 2 = 1)) pre.length cs := by
  induction cs with
  | nil => intro pre; simp [commasFrom]
  | cons c cs ih =>
    intro pre
    have hih := ih (pre ++ [c])
    have e1 : pre ++ [c] ++ cs = pre ++ c :: cs := by simp
    have e2 : (pre ++ [c]).length = pre.length + 1 := by simp
    rw [e1, e2] at hih
    have hhead : isSplitComma (pre ++ c :: cs) pre.length
        = (c == ',' && pre.count '"' % 2 == 0) := by
      have hget : (pre ++ c :: cs).get? pre.length = some c := by
        rw [List.get?_eq_getElem?, List.getElem?_append_right (Nat.le_refl _)]
        simp
      have htake : (pre ++ c :: cs).take pre.length = pre := by simp
      simp only [isSplitComma, quotesBefore, hget, htake]
      simp
    rw [List.length_cons, List.range'_succ, List.filter_cons, hhead, hih]
    simp only [commasFrom]
    by_cases hq : c = '"'
    · subst hq
      have : ('"' == ',') = false := by decide
      simp only [this, Bool.false_and, if_true]
      simp only [Bool.false_eq_true, ↓reduceIte]
      congr 1
      rw [List.count_append]
      simp only [List.count_singleton, beq_self_eq_true, if_true]
      rcases Nat.mod_two_eq_zero_or_one (pre.count '"') with h0 | h0
      · have : (pre.count '"' + 1) % 2 = 1 := by omega
        simp [h0, this]
      · have : (pre.count '"' + 1) % 2 = 0 := by omega
        simp [h0, this]
    · have hcnt : (pre ++ [c]).count '"' = pre.count '"' := by
        rw [List.count_append]
        simp [List.count_singleton, hq]
      rw [hcnt]
      by_cases hc : c = ','
      · subst hc
        by_cases hpar : pre.count '"' % 2 = 1
        · have : ¬ (pre.count '"' % 2 = 0) := by omega
          simp [hpar, this, comma_ne_quote]
        · have : pre.count '"' % 2 = 0 := by omega
          simp [this, comma_ne_quote]
      · simp [hc, hq]

theorem splitCommas_eq (line : List Char) : splitCommas line = commasFrom false 0 line := by
  have := filter_range_eq_commasFrom line []
  simpa [splitCommas, List.range_eq_range'] using this

theorem getD_map_succ (l : List Nat) (j d : Nat) :
    (l.map (· + 1)).getD j (d + 1) = l.getD j d + 1 := by
  induction l generalizing j with
  | nil => simp
  | cons a l ih => cases j <;> simp [ih]

theorem getD_map_succ_lt (l : List Nat) (j d e : Nat) (h : j < l.length) :
    (l.map (· + 1)).getD j d = l.getD j e + 1 := by
  induction l generalizing j with
  | nil => simp at h
  | cons a l ih =>
    cases j with
    | zero => simp
    | succ j => simpa using ih j (by simpa using h)

theorem getD_consHead_zero (c : Char) (F : List (List Char)) (hF : F ≠ []) :
    (consHead c F).getD 0 [] = c :: F.getD 0 [] := by
  match F, hF with
  | f :: fs, _ => simp [consHead]

theorem getD_consHead_succ (c : Char) (F : List (List Char)) (hF : F ≠ []) (j : Nat) :
    (consHead c F).getD (j + 1) [] = F.getD (j + 1) [] := by
  match F, hF with
  | f :: fs, _ => simp [consHead]

/-- The pieces of the abstract splitter, by position. -/
theorem splitAbs_between (cs : List Char) :
    ∀ (k : Nat) (q : Bool),
      (splitAbs k q cs).length = ((commasFrom q 0 cs).take k).length + 1 ∧
      ∀ j, j ≤ ((commasFrom q 0 cs).take k).length →
        (splitAbs k q cs).getD j [] = between cs ((commasFrom q 0 cs).take k) j := by
  induction cs with
  | nil =>
    intro k q
    cases k <;> simp [splitAbs, commasFrom, between]
  | cons c cs ih =>
    intro k q
    cases k with
    | zero => simp [splitAbs, between]
    | succ k =>
      have hkeep : ∀ q2, commasFrom q2 (0 + 1) cs = (commasFrom q2 0 cs).map (· + 1) :=
        fun q2 => commasFrom_shift cs q2 0
      have hcons : ∀ q2,
          (consHead c (splitAbs (k + 1) q2 cs)).length
              = (((commasFrom q2 0 cs).map (· + 1)).take (k + 1)).length + 1 ∧
          ∀ j, j ≤ (((commasFrom q2 0 cs).map (· + 1)).take (k + 1)).length →
            (consHead c (splitAbs (k + 1) q2 cs)).getD j []
              = between (c :: cs) (((commasFrom q2 0 cs).map (· + 1)).take (k + 1)) j := by
        intro q2
        obtain ⟨hl, hj⟩ := ih (k + 1) q2
        have hne := splitAbs_ne_nil (k + 1) q2 cs
        rw [← List.map_take]
        refine ⟨by rw [length_consHead _ _ hne, hl]; simp, ?_⟩
        intro j hjle
        rw [List.length_map] at hjle
        cases j with
        | zero =>
          rw [getD_consHead_zero _ _ hne, hj 0 (Nat.zero_le _)]
          simp only [between, if_true, List.drop_zero, List.length_cons]
          rw [getD_map_succ]
          simp
        | succ j =>
          rw [getD_consHead_succ _ _ hne, hj (j + 1) hjle]
          simp only [between, Nat.add_sub_cancel, List.length_cons]
          rw [getD_map_succ, getD_map_succ_lt _ j 0 0 (by omega)]
          simp
      simp only [splitAbs, commasFrom]
      split_ifs with h1 h2
      · rw [hkeep]; exact hcons _
      · obtain ⟨hl, hj⟩ := ih k q
        rw [hkeep, List.take_succ_cons, ← List.map_take]
        refine ⟨by simp [hl], ?_⟩
        intro j hjle
        simp only [List.length_cons, List.length_map] at hjle
        cases j with
        | zero => simp [between]
        | succ j =>
          have hjle2 : j ≤ ((commasFrom q 0 cs).take k).length := by omega
          rw [List.getD_cons_succ, hj j hjle2]
          simp only [between, Nat.add_sub_cancel, List.length_cons, List.getD_cons_succ]
          rw [getD_map_succ]
          cases j with
          | zero => simp
          | succ i =>
            simp only [List.getD_cons_succ, Nat.add_sub_cancel]
            rw [getD_map_succ_lt _ i 0 0 (by omega)]
            simp
      · rw [hkeep]; exact hcons _


/-! ## Facts about mapLast and chop -/

theorem length_mapLast {α : Type} (g : α → α) (F : List α) :
    (mapLast g F).length = F.length := by
  induction F with
  | nil => rfl
  | cons f F ih =>
    cases F with
    | nil => rfl
    | cons f2 F2 => simpa [mapLast] using ih

theorem getD_mapLast_of_lt {α : Type} (g : α → α) (F : List α) (k : Nat) (d : α)
    (h : k + 1 < F.length) : (mapLast g F).getD k d = F.getD k d := by
  induction F generalizing k with
  | nil => simp at h
  | cons f F ih =>
    cases F with
    | nil => simp at h
    | cons f2 F2 =>
      cases k with
      | zero => simp [mapLast]
      | succ k =>
        simp only [mapLast, List.getD_cons_succ]
        exact ih k (by simpa using h)

theorem getD_mapLast_last {α : Type} (g : α → α) (F : List α) (k : Nat) (d : α)
    (h : k + 1 = F.length) : (mapLast g F).getD k d = g (F.getD k d) := by
  induction F generalizing k with
  | nil => simp at h
  | cons f F ih =>
    cases F with
    | nil =>
      have : k = 0 := by simpa using h
      subst this
      simp [mapLast]
    | cons f2 F2 =>
      cases k with
      | zero => simp at h
      | succ k =>
        simp only [mapLast, List.getD_cons_succ]
        exact ih k (by simpa using h)

theorem count_quote_chop (f : List Char) : (chop f).count '"' = f.count '"' := by
  rcases List.eq_nil_or_concat f with rfl | ⟨g, t, rfl⟩
  · rfl
  · simp only [List.concat_eq_append]
    rw [chop_concat]
    split_ifs with ht
    · have : t ≠ '"' := by
        intro h
        subst h
        exact absurd ht (by decide)
      rw [List.count_append]
      simp [List.count_singleton, this]
    · rfl

theorem quoteCount_mapLast_chop (F : List (List Char)) :
    quoteCount (mapLast chop F) = quoteCount F := by
  induction F with
  | nil => rfl
  | cons f F ih =>
    cases F with
    | nil => simp [mapLast, quoteCount, count_quote_chop]
    | cons f2 F2 =>
      simp only [mapLast]
      simp only [quoteCount, List.map_cons, List.sum_cons] at ih ⊢
      rw [ih]

theorem count_quote_joinWith (sep : Char) (hsep : sep ≠ '"') (F : List (List Char)) :
    (joinWith sep F).count '"' = quoteCount F := by
  induction F with
  | nil => rfl
  | cons f F ih =>
    by_cases hF : F = []
    · subst hF
      simp [joinWith, quoteCount]
    · rw [joinWith_cons _ _ _ hF, List.count_append, List.count_cons, ih]
      simp [quoteCount, hsep]

theorem quoteCount_split_fields (line : List Char) (max_cols : Nat) (h : NUL ∉ line) :
    quoteCount (split_fields line max_cols) = line.count '"' := by
  have hj := congrArg (List.count '"') (joinWith_splitAbs (max_cols - 1) false line)
  rw [count_quote_joinWith _ comma_ne_quote] at hj
  rw [split_fields_eq line max_cols h]
  split_ifs
  · rw [quoteCount_mapLast_chop, hj]
  · exact hj

/-! ## Fields by position -/

theorem split_fields_nil (max_cols : Nat) : split_fields [] max_cols = [[]] := by
  have := split_fields_eq [] max_cols (by simp)
  rw [this]
  cases h : max_cols - 1 <;> simp [splitAbs, mapLast, chop]

/-- Number of fields and the text of each, when `k = max_cols - 1` splits are
allowed. -/
theorem split_fields_between (line : List Char) (max_cols : Nat) (h : NUL ∉ line) :
    (split_fields line max_cols).length = ((splitCommas line).take (max_cols - 1)).length + 1 ∧
    (∀ j, j < ((splitCommas line).take (max_cols - 1)).length →
      (split_fields line max_cols).getD j []
        = between line ((splitCommas line).take (max_cols - 1)) j) ∧
    (split_fields line max_cols).getD ((splitCommas line).take (max_cols - 1)).length []
      = if ((splitCommas line).take (max_cols - 1)).length + 1 < max_cols then
          chop (between line ((splitCommas line).take (max_cols - 1))
            ((splitCommas line).take (max_cols - 1)).length)
        else
          between line ((splitCommas line).take (max_cols - 1))
            ((splitCommas line).take (max_cols - 1)).length := by
  obtain ⟨hl, hj⟩ := splitAbs_between line (max_cols - 1) false
  rw [← splitCommas_eq] at hl hj
  rw [split_fields_eq line max_cols h]
  generalize (splitCommas line).take (max_cols - 1) = ps at hl hj ⊢
  generalize splitAbs (max_cols - 1) false line = F at hl hj ⊢
  rw [hl]
  split_ifs with hlt
  · refine ⟨by rw [length_mapLast, hl], ?_, ?_⟩
    · intro j hjlt
      rw [getD_mapLast_of_lt _ _ _ _ (by omega), hj j (by omega)]
    · rw [getD_mapLast_last _ _ _ _ (by omega), hj _ (Nat.le_refl _)]
  · exact ⟨hl, fun j hjlt => hj j (by omega), hj _ (Nat.le_refl _)⟩


/-! ## One line of input -/

/-- The line as `main` hands it to the splitter: cut at the first `NUL`, `\r` or `\n`. -/
theorem cstr_store_strcspn (line reject : List Char) :
    cstr (store line (strcspn line reject) NUL)
      = line.takeWhile (fun c => c != NUL && !reject.contains c) := by
  unfold cstr cstr_at store strcspn
  simp only [List.drop_zero]
  induction line with
  | nil => simp
  | cons c cs ih =>
    by_cases hp : (c != NUL && !reject.contains c) = true
    · have hc : (c != NUL) = true := by
        simp only [Bool.and_eq_true] at hp
        exact hp.1
      rw [@List.takeWhile_cons_of_pos _ (fun c => c != NUL && !reject.contains c) c cs hp,
        List.length_cons, List.set_cons_succ,
        @List.takeWhile_cons_of_pos _ (fun c => c != NUL) c _ hc, ih]
    · rw [@List.takeWhile_cons_of_neg _ (fun c => c != NUL && !reject.contains c) c cs hp,
        List.length_nil, List.set_cons_zero,
        @List.takeWhile_cons_of_neg _ (fun c => c != NUL) NUL cs (by simp)]

theorem parse_line_eq (line : List Char) :
    parse_line line = split_fields ((cut line).take MAX_LINE) MAX_COLS := by
  show fields (split_csv_line
    ((cstr (store line (strcspn line ['\r', '\n']) NUL)).take MAX_LINE) MAX_COLS) = _
  rw [cstr_store_strcspn]
  rfl

theorem not_mem_cut (line : List Char) (a : Char) (ha : a = NUL ∨ a = '\r' ∨ a = '\n') :
    a ∉ cut line := by
  intro hmem
  have := List.mem_takeWhile_imp hmem
  rcases ha with rfl | rfl | rfl <;> simp at this

theorem not_mem_take_cut (line : List Char) (n : Nat) (a : Char)
    (ha : a = NUL ∨ a = '\r' ∨ a = '\n') : a ∉ (cut line).take n :=
  fun h => not_mem_cut line a ha (List.mem_of_mem_take h)

theorem chop_subset (f : List Char) : ∀ a ∈ chop f, a ∈ f := by
  intro a ha
  unfold chop at ha
  split at ha
  · split_ifs at ha
    · exact List.mem_of_mem_dropLast ha
    · exact ha
  · exact ha

theorem mem_mapLast {α : Type} (g : α → α) (F : List α) (x : α) (h : x ∈ mapLast g F) :
    ∃ y ∈ F, x = y ∨ x = g y := by
  induction F with
  | nil => simp [mapLast] at h
  | cons f F ih =>
    cases F with
    | nil =>
      simp [mapLast] at h
      exact ⟨f, by simp, Or.inr h⟩
    | cons f2 F2 =>
      simp only [mapLast, List.mem_cons] at h
      rcases h with rfl | h
      · exact ⟨x, by simp, Or.inl rfl⟩
      · obtain ⟨y, hy, hxy⟩ := ih (by simpa [mapLast] using h)
        exact ⟨y, List.mem_cons_of_mem _ hy, hxy⟩

/-- Every character of a returned field is a character of the line. -/
theorem split_fields_subset (line : List Char) (max_cols : Nat) (h : NUL ∉ line) :
    ∀ f ∈ split_fields line max_cols, ∀ a ∈ f, a ∈ line := by
  intro f hf a ha
  rw [split_fields_eq line max_cols h] at hf
  split_ifs at hf
  · obtain ⟨g, hg, hfg⟩ := mem_mapLast _ _ _ hf
    rcases hfg with rfl | rfl
    · exact mem_splitAbs _ _ _ _ hg a ha
    · exact mem_splitAbs _ _ _ _ hg a (chop_subset _ a ha)
  · exact mem_splitAbs _ _ _ _ hf a ha

theorem length_split_fields (line : List Char) (max_cols : Nat) (h : NUL ∉ line) :
    1 ≤ (split_fields line max_cols).length ∧
      (split_fields line max_cols).length ≤ (max_cols - 1) + 1 := by
  rw [split_fields_eq line max_cols h]
  split_ifs
  · rw [length_mapLast]
    exact ⟨length_splitAbs_pos _ _ _, length_splitAbs_le _ _ _⟩
  · exact ⟨length_splitAbs_pos _ _ _, length_splitAbs_le _ _ _⟩

theorem length_parse_line (line : List Char) :
    1 ≤ (parse_line line).length ∧ (parse_line line).length ≤ MAX_COLS := by
  rw [parse_line_eq]
  exact length_split_fields _ _ (not_mem_take_cut line _ NUL (Or.inl rfl))

theorem parse_line_no_newline (line : List Char) :
    ∀ f ∈ parse_line line, '\n' ∉ f := by
  intro f hf hn
  rw [parse_line_eq] at hf
  exact not_mem_take_cut line MAX_LINE '\n' (Or.inr (Or.inr rfl))
    (split_fields_subset _ _ (not_mem_take_cut line _ NUL (Or.inl rfl)) f hf _ hn)

/-! ## Column widths -/

theorem store_row_eq (cols : List (List Char)) : store_row cols cols.length = cols := by
  unfold store_row
  apply List.ext_getElem
  · simp
  · intro n h1 h2
    simp [List.getD_eq_getElem?_getD, List.getElem?_eq_getElem h2]

theorem getD_set_self (l : List Nat) (i a d : Nat) (h : i < l.length) :
    (l.set i a).getD i d = a := by
  simp [List.getD_eq_getElem?_getD, List.getElem?_set, h]

theorem getD_set_ne (l : List Nat) (i j a d : Nat) (h : i ≠ j) :
    (l.set i a).getD j d = l.getD j d := by
  simp [List.getD_eq_getElem?_getD, List.getElem?_set, h]

theorem update_widths_spec (cols : List (List Char)) (n : Nat) (w : List Nat)
    (hn : n ≤ w.length) :
    (update_widths cols n w).length = w.length ∧
    ∀ i, (update_widths cols n w).getD i 0
      = if i < n then max (w.getD i 0) (cols.getD i []).length else w.getD i 0 := by
  induction n with
  | zero => simp [update_widths]
  | succ n ih =>
    obtain ⟨hl, hg⟩ := ih (by omega)
    have hstep : update_widths cols (n + 1) w
        = if strlen (cols.getD n []) > (update_widths cols n w).getD n 0 then
            (update_widths cols n w).set n (strlen (cols.getD n []))
          else update_widths cols n w := by
      simp [update_widths, List.range_succ, List.foldl_append]
    have hprev : (update_widths cols n w).getD n 0 = w.getD n 0 := by
      rw [hg n]; simp
    rw [hstep, hprev]
    unfold strlen
    split_ifs with hgt
    · refine ⟨by simp [hl], ?_⟩
      intro i
      by_cases hi : i = n
      · subst hi
        have : i < (update_widths cols i w).length := by omega
        rw [getD_set_self _ _ _ _ this, if_pos (Nat.lt_succ_self i)]
        exact (max_eq_right (Nat.le_of_lt hgt)).symm
      · have hne : n ≠ i := fun h => hi h.symm
        rw [getD_set_ne _ _ _ _ _ hne, hg i]
        by_cases h1 : i < n
        · simp [h1, Nat.lt_succ_of_lt h1]
        · have : ¬ i < n + 1 := by omega
          simp [h1, this]
    · refine ⟨hl, ?_⟩
      intro i
      rw [hg i]
      by_cases hi : i = n
      · subst hi
        rw [if_pos (Nat.lt_succ_self i), if_neg (Nat.lt_irrefl i)]
        exact (max_eq_left (Nat.le_of_not_lt hgt)).symm
      · by_cases h1 : i < n
        · simp [h1, Nat.lt_succ_of_lt h1]
        · have : ¬ i < n + 1 := by omega
          simp [h1, this]


/-! ## Lines of the input and what fgets reads -/

theorem input_lines_eq_nil (s : List Char) : input_lines s = [] ↔ s = [] := by
  cases s with
  | nil => simp [input_lines]
  | cons c cs =>
    simp only [input_lines]
    split_ifs
    · simp
    · cases input_lines cs <;> simp

theorem flatten_input_lines (s : List Char) : (input_lines s).flatten = s := by
  induction s with
  | nil => simp [input_lines]
  | cons c cs ih =>
    simp only [input_lines]
    split_ifs
    · simp [ih]
    · cases h : input_lines cs with
      | nil =>
        have := (input_lines_eq_nil cs).mp h
        simp [this]
      | cons l ls =>
        rw [h] at ih
        simp only [List.flatten_cons] at ih ⊢
        rw [List.cons_append, ih]

theorem input_lines_tail (s : List Char) :
    ∀ l ls, input_lines s = l :: ls → input_lines ls.flatten = ls := by
  induction s with
  | nil => intro l ls h; simp [input_lines] at h
  | cons c cs ih =>
    intro l ls h
    simp only [input_lines] at h
    split_ifs at h
    · simp only [List.cons.injEq] at h
      rw [← h.2, flatten_input_lines]
    · cases h2 : input_lines cs with
      | nil =>
        rw [h2] at h
        simp only [List.cons.injEq] at h
        rw [← h.2]
        rfl
      | cons l2 ls2 =>
        rw [h2] at h
        simp only [List.cons.injEq] at h
        rw [← h.2]
        exact ih l2 ls2 h2

theorem fgets_read_nil (n : Nat) : fgets_read n [] = ([], []) := by
  cases n <;> rfl

/-- A line that fits in the buffer is read whole by `fgets`. -/
theorem fgets_read_line (s : List Char) :
    ∀ n l ls, input_lines s = l :: ls → l.length ≤ n → fgets_read n s = (l, ls.flatten) := by
  induction s with
  | nil => intro n l ls h; simp [input_lines] at h
  | cons c cs ih =>
    intro n l ls h hn
    simp only [input_lines] at h
    split_ifs at h with hc
    · simp only [List.cons.injEq] at h
      obtain ⟨h1, h2⟩ := h
      subst h1
      obtain ⟨m, rfl⟩ : ∃ m, n = m + 1 := ⟨n - 1, by simp at hn; omega⟩
      simp [fgets_read, hc, ← h2, flatten_input_lines]
    · cases h2 : input_lines cs with
      | nil =>
        rw [h2] at h
        simp only [List.cons.injEq] at h
        obtain ⟨h3, h4⟩ := h
        subst h3
        subst h4
        have hcs := (input_lines_eq_nil cs).mp h2
        subst hcs
        obtain ⟨m, rfl⟩ : ∃ m, n = m + 1 := ⟨n - 1, by simp at hn; omega⟩
        simp [fgets_read, hc, fgets_read_nil]
      | cons l2 ls2 =>
        rw [h2] at h
        simp only [List.cons.injEq] at h
        obtain ⟨h3, h4⟩ := h
        subst h3
        subst h4
        obtain ⟨m, rfl⟩ : ∃ m, n = m + 1 := ⟨n - 1, by simp at hn; omega⟩
        have := ih m l2 ls2 h2 (by simpa using hn)
        simp [fgets_read, hc, this]

theorem read_row_nrows (t : Table) (line : List Char) :
    (read_row t line).nrows = t.nrows + 1 := rfl

/-- More fuel than the rows still allowed changes nothing: the loop always
ends by its own condition. -/
theorem read_loop_fuel (fuel : Nat) :
    ∀ (fp : List Char) (t : Table), MAX_ROWS < t.nrows + fuel →
      read_loop (fuel + 1) fp t = read_loop fuel fp t := by
  induction fuel with
  | zero =>
    intro fp t h
    have : ¬ t.nrows < MAX_ROWS := by omega
    simp only [read_loop]
    cases fgets MAX_LINE fp with
    | none => rfl
    | some r => simp [this]
  | succ fuel ih =>
    intro fp t h
    rw [read_loop, read_loop]
    cases fgets MAX_LINE fp with
    | none => rfl
    | some r =>
      simp only
      split_ifs
      · exact ih _ _ (by rw [read_row_nrows]; omega)
      · rfl

/-- When every line fits in the buffer the loop reads the input line by line. -/
theorem read_loop_lines (fuel : Nat) :
    ∀ (s : List Char) (t : Table), (∀ l ∈ input_lines s, l.length < MAX_LINE) →
      MAX_ROWS < t.nrows + fuel →
      read_loop fuel s t = ((input_lines s).take (MAX_ROWS - t.nrows)).foldl read_row t := by
  induction fuel with
  | zero =>
    intro s t _ h
    have : MAX_ROWS - t.nrows = 0 := by omega
    simp [read_loop, this]
  | succ fuel ih =>
    intro s t hfit h
    rw [read_loop]
    cases hl : input_lines s with
    | nil =>
      have := (input_lines_eq_nil s).mp hl
      subst this
      simp [fgets]
    | cons l ls =>
      have hs : s ≠ [] := by
        intro h0
        rw [h0] at hl
        simp [input_lines] at hl
      have hlen : l.length ≤ MAX_LINE - 1 := by
        have := hfit l (by rw [hl]; simp)
        omega
      have hf : fgets MAX_LINE s = some (l, ls.flatten) := by
        simp [fgets, hs, fgets_read_line s _ l ls hl hlen]
      rw [hf]
      simp only
      split_ifs with hlt
      · have htail := input_lines_tail s l ls hl
        have := ih ls.flatten (read_row t l)
          (by rw [htail]; intro x hx; exact hfit x (by rw [hl]; simp [hx]))
          (by rw [read_row_nrows]; omega)
        rw [this, htail, read_row_nrows]
        obtain ⟨m, hm⟩ : ∃ m, MAX_ROWS - t.nrows = m + 1 := ⟨MAX_ROWS - t.nrows - 1, by omega⟩
        have hm2 : MAX_ROWS - (t.nrows + 1) = m := by omega
        rw [hm, hm2]
        simp
      · have : MAX_ROWS - t.nrows = 0 := by omega
        simp [this]

/-! ## The table after a sequence of lines -/

theorem foldl_read_row_rows (ls : List (List Char)) :
    ∀ t : Table, (ls.foldl read_row t).rows = t.rows ++ ls.map parse_line := by
  induction ls with
  | nil => intro t; simp
  | cons l ls ih =>
    intro t
    rw [List.foldl_cons, ih]
    simp [read_row, store_row_eq]

theorem foldl_read_row_nrows (ls : List (List Char)) :
    ∀ t : Table, (ls.foldl read_row t).nrows = t.nrows + ls.length := by
  induction ls with
  | nil => intro t; simp
  | cons l ls ih =>
    intro t
    rw [List.foldl_cons, ih, read_row_nrows]
    simp
    omega

theorem foldl_read_row_ncols_keep (ls : List (List Char)) :
    ∀ t : Table, t.nrows ≠ 0 → (ls.foldl read_row t).ncols = t.ncols := by
  induction ls with
  | nil => intro t _; simp
  | cons l ls ih =>
    intro t h
    rw [List.foldl_cons, ih _ (by rw [read_row_nrows]; omega)]
    simp [read_row, h]

theorem foldl_read_row_ncols (l : List Char) (ls : List (List Char)) (t : Table)
    (h : t.nrows = 0) : ((l :: ls).foldl read_row t).ncols = (parse_line l).length := by
  rw [List.foldl_cons, foldl_read_row_ncols_keep _ _ (by rw [read_row_nrows]; omega)]
  simp [read_row, h]

theorem max_field_length_cons (r : List (List Char)) (rs : List (List (List Char))) (i : Nat) :
    max_field_length (r :: rs) i
      = if i < r.length then max (r.getD i []).length (max_field_length rs i)
        else max_field_length rs i := by
  unfold max_field_length
  by_cases h : i < r.length
  · simp [List.filterMap_cons, List.get?_eq_getElem?, List.getElem?_eq_getElem h, h,
      List.getD_eq_getElem?_getD]
  · have : r[i]? = none := List.getElem?_eq_none (by omega)
    simp [List.filterMap_cons, List.get?_eq_getElem?, this, h]

theorem read_row_col_width (t : Table) (line : List Char)
    (hw : t.col_width.length = MAX_COLS) :
    (read_row t line).col_width.length = MAX_COLS ∧
    ∀ i, (read_row t line).col_width.getD i 0
      = if i < (parse_line line).length then
          max (t.col_width.getD i 0) ((parse_line line).getD i []).length
        else t.col_width.getD i 0 := by
  have := update_widths_spec (parse_line line) (parse_line line).length t.col_width
    (by rw [hw]; exact (length_parse_line line).2)
  exact ⟨by rw [← hw]; exact this.1, this.2⟩

theorem foldl_read_row_col_width (ls : List (List Char)) :
    ∀ t : Table, t.col_width.length = MAX_COLS →
      (ls.foldl read_row t).col_width.length = MAX_COLS ∧
      ∀ i, (ls.foldl read_row t).col_width.getD i 0
        = max (t.col_width.getD i 0) (max_field_length (ls.map parse_line) i) := by
  induction ls with
  | nil => intro t hw; simp [hw, max_field_length]
  | cons l ls ih =>
    intro t hw
    obtain ⟨h1, h2⟩ := read_row_col_width t l hw
    obtain ⟨h3, h4⟩ := ih (read_row t l) h1
    rw [List.foldl_cons]
    refine ⟨h3, ?_⟩
    intro i
    rw [h4 i, h2 i, List.map_cons, max_field_length_cons]
    split_ifs
    · rw [max_assoc]
    · rfl


/-! ## The table for an arbitrary input -/

theorem read_loop_chunks (fuel : Nat) :
    ∀ (fp : List Char) (t : Table),
      read_loop fuel fp t
        = (read_chunks (min fuel (MAX_ROWS - t.nrows)) fp).foldl read_row t := by
  induction fuel with
  | zero => intro fp t; simp [read_loop, read_chunks]
  | succ fuel ih =>
    intro fp t
    rw [read_loop]
    cases hf : fgets MAX_LINE fp with
    | none =>
      cases hm : min (fuel + 1) (MAX_ROWS - t.nrows) <;> simp [read_chunks, hf]
    | some r =>
      obtain ⟨line, rest⟩ := r
      simp only
      split_ifs with hlt
      · have hm : min (fuel + 1) (MAX_ROWS - t.nrows)
            = min fuel (MAX_ROWS - (read_row t line).nrows) + 1 := by
          rw [read_row_nrows]; omega
        rw [hm, ih]
        simp [read_chunks, hf]
      · have hm : min (fuel + 1) (MAX_ROWS - t.nrows) = 0 := by omega
        rw [hm]
        simp [read_chunks]

theorem length_read_chunks (n : Nat) : ∀ fp, (read_chunks n fp).length ≤ n := by
  induction n with
  | zero => intro fp; simp [read_chunks]
  | succ n ih =>
    intro fp
    rw [read_chunks]
    cases fgets MAX_LINE fp with
    | none => simp
    | some r => simpa using ih r.2

theorem read_table_eq_foldl (fp : List Char) :
    read_table fp = (read_chunks MAX_ROWS fp).foldl read_row Table.init := by
  unfold read_table
  rw [read_loop_chunks]
  rfl

theorem le_max_field_length (rows : List (List (List Char))) (i : Nat) :
    ∀ r ∈ rows, i < r.length → (r.getD i []).length ≤ max_field_length rows i := by
  induction rows with
  | nil => intro r hr; simp at hr
  | cons r0 rows ih =>
    intro r hr hi
    rw [max_field_length_cons]
    rcases List.mem_cons.mp hr with rfl | hr
    · rw [if_pos hi]; exact le_max_left _ _
    · have := ih r hr hi
      split_ifs
      · exact le_trans this (le_max_right _ _)
      · exact this

/-- The table built from any input: the rows are the parsed results of
`fgets`, `ncols` is the field count of the first, the widths are the per-column
maxima. -/
theorem read_table_spec (fp : List Char) :
    (read_table fp).rows = (read_chunks MAX_ROWS fp).map parse_line ∧
    (read_table fp).nrows = (read_table fp).rows.length ∧
    (read_table fp).nrows ≤ MAX_ROWS ∧
    (read_table fp).ncols = ((read_table fp).rows.getD 0 []).length ∧
    (read_table fp).col_width.length = MAX_COLS ∧
    ∀ i, (read_table fp).col_width.getD i 0 = max_field_length (read_table fp).rows i := by
  rw [read_table_eq_foldl]
  have hrows := foldl_read_row_rows (read_chunks MAX_ROWS fp) Table.init
  have hn := foldl_read_row_nrows (read_chunks MAX_ROWS fp) Table.init
  have hw := foldl_read_row_col_width (read_chunks MAX_ROWS fp) Table.init
    (by simp [Table.init])
  have hlen := length_read_chunks MAX_ROWS fp
  have hr0 : Table.init.rows = [] := rfl
  have hn0 : Table.init.nrows = 0 := rfl
  rw [hr0, List.nil_append] at hrows
  rw [hn0, Nat.zero_add] at hn
  refine ⟨hrows, by rw [hn, hrows]; simp, by rw [hn]; exact hlen, ?_, hw.1, ?_⟩
  · rw [hrows]
    cases hc : read_chunks MAX_ROWS fp with
    | nil => simp [Table.init]
    | cons l ls =>
      rw [foldl_read_row_ncols l ls _ hn0]
      simp
  · intro i
    rw [hw.2 i, hrows]
    have : Table.init.col_width.getD i 0 = 0 := by
      simp [Table.init, List.getD_eq_getElem?_getD, List.getElem?_replicate]
      split_ifs <;> rfl
    rw [this]
    simp

/-- When every line fits, the rows of the table are the parsed lines. -/
theorem read_table_rows_of_fit (input : List Char)
    (hfit : ∀ l ∈ input_lines input, l.length < MAX_LINE) :
    (read_table input).rows = ((input_lines input).take MAX_ROWS).map parse_line := by
  unfold read_table
  rw [read_loop_lines _ _ _ hfit (by simp [Table.init]), foldl_read_row_rows]
  simp [Table.init]


/-! ## Rendering -/

theorem printf_cell_eq_cell (w : Nat) (s : List Char) : printf_cell w s = cell w s := by
  simp [printf_cell, cell]

theorem print_cells_some (cols : List (List Char)) (w : List Nat) (is : List Nat)
    (h : ∀ i ∈ is, i < cols.length) :
    print_cells cols w is
      = some ((is.map (fun i => cell (w.getD i 0) (cols.getD i []))).flatten) := by
  induction is with
  | nil => rfl
  | cons i is ih =>
    have hi : i < cols.length := h i (by simp)
    have hget : cols.get? i = some (cols.getD i []) := by
      simp [List.get?_eq_getElem?, List.getElem?_eq_getElem hi, List.getD_eq_getElem?_getD]
    rw [print_cells, hget, ih (fun j hj => h j (by simp [hj]))]
    simp [printf_cell_eq_cell]

theorem print_cells_none (cols : List (List Char)) (w : List Nat) (is : List Nat)
    (h : ∃ i ∈ is, cols.length ≤ i) : print_cells cols w is = none := by
  induction is with
  | nil => simp at h
  | cons i is ih =>
    rw [print_cells]
    by_cases hi : cols.length ≤ i
    · have : cols.get? i = none := by
        simp [List.get?_eq_getElem?, List.getElem?_eq_none hi]
      rw [this]
    · obtain ⟨j, hj, hjl⟩ := h
      have hj2 : j ∈ is := by
        rcases List.mem_cons.mp hj with rfl | hj
        · exact absurd hjl hi
        · exact hj
      rw [ih ⟨j, hj2, hjl⟩]
      cases cols.get? i <;> rfl

theorem print_md_row_some (cols : List (List Char)) (ncols : Nat) (w : List Nat)
    (h : ncols ≤ cols.length) : print_md_row cols ncols w = some (row_line ncols w cols) := by
  unfold print_md_row
  rw [print_cells_some cols w _ (fun i hi => by simp at hi; omega)]
  simp [row_line]

theorem print_md_row_none (cols : List (List Char)) (ncols : Nat) (w : List Nat)
    (h : cols.length < ncols) : print_md_row cols ncols w = none := by
  unfold print_md_row
  rw [print_cells_none cols w _ ⟨cols.length, by simp [h], Nat.le_refl _⟩]
  rfl

theorem print_body_some (t : Table) (rs : List Nat)
    (h : ∀ r ∈ rs, t.ncols ≤ (t.rows.getD r []).length) :
    print_body t rs
      = some ((rs.map (fun r => row_line t.ncols t.col_width (t.rows.getD r []))).flatten) := by
  induction rs with
  | nil => rfl
  | cons r rs ih =>
    rw [print_body, print_md_row_some _ _ _ (h r (by simp)),
      ih (fun j hj => h j (by simp [hj]))]
    simp

theorem getD_mem_of_lt {α : Type} (l : List α) (r : Nat) (d : α) (h : r < l.length) :
    l.getD r d ∈ l := by
  rw [List.getD_eq_getElem?_getD, List.getElem?_eq_getElem h]
  exact List.getElem_mem h

theorem map_range_getD_tail {α β : Type} (f : α → β) (r0 d : α) (rest : List α) :
    (List.range' 1 rest.length).map (fun r => f ((r0 :: rest).getD r d)) = rest.map f := by
  apply List.ext_getElem
  · simp
  · intro n h1 h2
    simp at h1 h2
    simp [List.getD_eq_getElem?_getD, Nat.add_comm 1 n, List.getElem?_eq_getElem h2]

theorem print_table_some (t : Table) (hn : t.nrows = t.rows.length)
    (h : ∀ row ∈ t.rows, t.ncols ≤ row.length) :
    print_table t = some (table_lines t).flatten := by
  unfold print_table table_lines
  cases hr : t.rows with
  | nil =>
    rw [hr] at hn
    simp [hn]
  | cons r0 rest =>
    rw [hr] at hn h
    have hpos : t.nrows > 0 := by rw [hn]; simp
    rw [if_pos hpos]
    have h0 : print_md_row ((r0 :: rest).getD 0 []) t.ncols t.col_width
        = some (row_line t.ncols t.col_width r0) :=
      print_md_row_some _ _ _ (h r0 (by simp))
    have hb := print_body_some t (List.range' 1 (t.nrows - 1)) (by
      intro r hr2
      rw [hr]
      apply h
      apply getD_mem_of_lt
      simp [List.mem_range'] at hr2
      rw [hn] at hr2
      simp at hr2 ⊢
      omega)
    rw [h0, hb, hr]
    have hlen : t.nrows - 1 = rest.length := by rw [hn]; simp
    rw [hlen, map_range_getD_tail (row_line t.ncols t.col_width) r0 [] rest]
    simp

theorem free_rows_some (t : Table) (hn : t.nrows = t.rows.length)
    (h : ∀ row ∈ t.rows, t.ncols ≤ row.length) : (free_rows t).isSome = true := by
  unfold free_rows
  simp only
  rw [if_pos]
  · rfl
  · rw [List.all_eq_true]
    intro rc hrc
    simp only [List.mem_flatMap, List.mem_range, List.mem_map] at hrc
    obtain ⟨r, hr, c, hc, rfl⟩ := hrc
    have hmem : t.rows.getD r [] ∈ t.rows := getD_mem_of_lt _ _ _ (by omega)
    have := h _ hmem
    simp only [List.get?_eq_getElem?]
    rw [List.getElem?_eq_getElem (by omega)]
    rfl

/-- The run on an open input when no row is shorter than the first. -/
theorem run_some (fp : List Char)
    (h : ∀ row ∈ (read_table fp).rows, (read_table fp).ncols ≤ row.length) :
    run fp = some { status := 0, stdout := (table_lines (read_table fp)).flatten,
                    diagnostic := false } := by
  have hn := (read_table_spec fp).2.1
  unfold run
  simp only
  rw [print_table_some _ hn h]
  cases hf : free_rows (read_table fp) with
  | none =>
    have := free_rows_some _ hn h
    rw [hf] at this
    simp at this
  | some cells => rfl

/-! ## The output as lines -/

theorem input_lines_append_line (x rest : List Char) (hx : '\n' ∉ x) :
    input_lines (x ++ '\n' :: rest) = (x ++ ['\n']) :: input_lines rest := by
  induction x with
  | nil => simp [input_lines]
  | cons c x ih =>
    have hc : c ≠ '\n' := fun h => hx (by simp [h])
    have hx2 : '\n' ∉ x := fun h => hx (by simp [h])
    rw [List.cons_append, input_lines, if_neg hc, ih hx2]
    simp

theorem input_lines_flatten (ls : List (List Char))
    (h : ∀ l ∈ ls, ∃ x, l = x ++ ['\n'] ∧ '\n' ∉ x) : input_lines ls.flatten = ls := by
  induction ls with
  | nil => rfl
  | cons l ls ih =>
    obtain ⟨x, rfl, hx⟩ := h l (by simp)
    rw [List.flatten_cons, List.append_assoc, List.singleton_append,
      input_lines_append_line x _ hx, ih (fun l hl => h l (by simp [hl]))]

theorem cell_no_newline (w : Nat) (s : List Char) (hs : '\n' ∉ s) : '\n' ∉ cell w s := by
  unfold cell
  simp only [List.mem_append, List.mem_cons, List.mem_replicate, not_or]
  simp [hs]

theorem row_line_shape (ncols : Nat) (w : List Nat) (row : List (List Char))
    (hrow : ∀ f ∈ row, '\n' ∉ f) :
    ∃ x, row_line ncols w row = x ++ ['\n'] ∧ '\n' ∉ x := by
  refine ⟨['|'] ++ ((List.range ncols).map
    (fun i => cell (w.getD i 0) (row.getD i []))).flatten, rfl, ?_⟩
  simp only [List.mem_append, List.mem_flatten, List.mem_map, not_or]
  refine ⟨by decide, ?_⟩
  rintro ⟨l, ⟨i, _, rfl⟩, hl⟩
  refine cell_no_newline _ _ ?_ hl
  by_cases hi : i < row.length
  · exact hrow _ (getD_mem_of_lt _ _ _ hi)
  · rw [List.getD_eq_getElem?_getD, List.getElem?_eq_none (by omega)]
    simp

theorem print_md_sep_shape (ncols : Nat) (w : List Nat) :
    ∃ x, print_md_sep ncols w = x ++ ['\n'] ∧ '\n' ∉ x := by
  refine ⟨'|' :: ((List.range ncols).map (fun i => printf_sep (w.getD i 0))).flatten, rfl, ?_⟩
  simp only [List.mem_cons, List.mem_flatten, List.mem_map, not_or]
  refine ⟨by decide, ?_⟩
  rintro ⟨l, ⟨i, _, rfl⟩, hl⟩
  unfold printf_sep dashes at hl
  simp only [List.mem_cons, List.mem_append] at hl
  rcases hl with hl | hl | hl
  · exact absurd hl (by decide)
  · have := List.mem_of_mem_take hl
    simp at this
  · simp at hl

theorem read_table_no_newline (fp : List Char) :
    ∀ row ∈ (read_table fp).rows, ∀ f ∈ row, '\n' ∉ f := by
  intro row hrow f hf
  rw [(read_table_spec fp).1] at hrow
  obtain ⟨l, _, rfl⟩ := List.mem_map.mp hrow
  exact parse_line_no_newline l f hf

/-- The lines of the output are the printed lines. -/
theorem input_lines_table_lines (fp : List Char) :
    input_lines (table_lines (read_table fp)).flatten = table_lines (read_table fp) := by
  apply input_lines_flatten
  intro l hl
  have hnn := read_table_no_newline fp
  unfold table_lines at hl
  cases hr : (read_table fp).rows with
  | nil => rw [hr] at hl; simp at hl
  | cons r0 rest =>
    rw [hr] at hl hnn
    simp only [List.mem_cons, List.mem_map] at hl
    rcases hl with rfl | rfl | ⟨r, hr2, rfl⟩
    · exact row_line_shape _ _ _ (hnn r0 (by simp))
    · exact print_md_sep_shape _ _
    · exact row_line_shape _ _ _ (hnn r (by simp [hr2]))


/-! ## Enough fuel for the splitter -/

/-- One more iteration than the bytes left changes nothing: the loop of
`split_csv_line` has ended by its own condition. -/
theorem split_loop_fuel (max_cols fuel : Nat) :
    ∀ s : Scan, s.buf.length ≤ s.p + fuel →
      split_loop max_cols (fuel + 1) s = split_loop max_cols fuel s := by
  induction fuel with
  | zero =>
    intro s h
    have : load s.buf s.p = NUL := by
      unfold load
      rw [List.getD_eq_getElem?_getD, List.getElem?_eq_none (by simpa using h)]
      rfl
    simp [split_loop, this]
  | succ fuel ih =>
    intro s h
    rw [split_loop]
    conv_rhs => rw [split_loop]
    split_ifs
    · exact ih _ (by simp only; omega)
    · exact ih _ (by simp only [store, List.length_set]; omega)
    · exact ih _ (by simp only; omega)
    · rfl

theorem split_scan_exit (line : List Char) (max_cols : Nat) (extra : Nat) :
    split_loop max_cols (line.length + extra) ⟨line, [0], 0, false⟩ = split_scan line max_cols := by
  induction extra with
  | zero => rfl
  | succ n ih =>
    rw [← ih, ← Nat.add_assoc]
    exact split_loop_fuel max_cols (line.length + n) _ (by simp)

/-! ## Input beyond the row bound, lines beyond the length bound -/

theorem fgets_read_append (P R : List Char) :
    ∀ n, '\n' ∈ P → fgets_read n (P ++ R) = ((fgets_read n P).1, (fgets_read n P).2 ++ R) := by
  induction P with
  | nil => intro n h; simp at h
  | cons c P ih =>
    intro n h
    cases n with
    | zero => simp [fgets_read]
    | succ n =>
      by_cases hc : c = '\n'
      · simp [fgets_read, hc]
      · have hP : '\n' ∈ P := by
          rcases List.mem_cons.mp h with h | h
          · exact absurd h.symm hc
          · exact h
        simp [fgets_read, hc, ih n hP]

theorem count_newline_fgets_read (P : List Char) :
    ∀ n, P.count '\n' ≤ (fgets_read n P).2.count '\n' + 1 := by
  induction P with
  | nil => intro n; simp
  | cons c P ih =>
    intro n
    cases n with
    | zero => simp [fgets_read]
    | succ n =>
      by_cases hc : c = '\n'
      · simp [fgets_read, hc]
      · have := ih n
        simp only [fgets_read, if_neg hc]
        rw [List.count_cons_of_ne (fun h => hc h.symm)]
        exact this

theorem read_loop_append (fuel : Nat) :
    ∀ (P R : List Char) (t : Table), MAX_ROWS - t.nrows ≤ P.count '\n' →
      read_loop fuel (P ++ R) t = read_loop fuel P t := by
  induction fuel with
  | zero => intro P R t _; rfl
  | succ fuel ih =>
    intro P R t h
    rw [read_loop]
    conv_rhs => rw [read_loop]
    by_cases hlt : t.nrows < MAX_ROWS
    · have hpos : 0 < P.count '\n' := by omega
      have hmem : '\n' ∈ P := List.count_pos_iff.mp hpos
      have hP : P ≠ [] := by intro h0; rw [h0] at hmem; simp at hmem
      have hPR : P ++ R ≠ [] := by simp [hP]
      have h1 : fgets MAX_LINE (P ++ R)
          = some ((fgets_read (MAX_LINE - 1) P).1, (fgets_read (MAX_LINE - 1) P).2 ++ R) := by
        simp only [fgets, hPR, if_false, fgets_read_append P R _ hmem]
      have h2 : fgets MAX_LINE P
          = some ((fgets_read (MAX_LINE - 1) P).1, (fgets_read (MAX_LINE - 1) P).2) := by
        simp only [fgets, hP, if_false]
      rw [h1, h2]
      simp only [hlt, if_true]
      apply ih
      rw [read_row_nrows]
      have := count_newline_fgets_read P (MAX_LINE - 1)
      omega
    · cases fgets MAX_LINE (P ++ R) <;> cases fgets MAX_LINE P <;> simp [hlt]

theorem count_newline_take_lines (s : List Char) :
    ∀ k, k < (input_lines s).length → k ≤ ((input_lines s).take k).flatten.count '\n' := by
  induction s with
  | nil => intro k h; simp [input_lines] at h
  | cons c cs ih =>
    intro k h
    cases k with
    | zero => simp
    | succ k =>
      simp only [input_lines] at h ⊢
      split_ifs at h ⊢ with hc
      · have := ih k (by simpa using h)
        simp [hc]
        omega
      · cases hl : input_lines cs with
        | nil => rw [hl] at h; simp at h
        | cons l ls =>
          rw [hl] at h ih
          have := ih (k + 1) (by simpa using h)
          simp only [List.take_succ_cons, List.flatten_cons] at this ⊢
          rw [List.cons_append, List.count_cons_of_ne (fun h => hc h.symm)]
          exact this

theorem fgets_read_chunk (chunk rest : List Char) :
    ∀ n, chunk.length = n → '\n' ∉ chunk → fgets_read n (chunk ++ rest) = (chunk, rest) := by
  induction chunk with
  | nil => intro n h _; simp at h; subst h; rfl
  | cons c chunk ih =>
    intro n h hn
    obtain ⟨m, rfl⟩ : ∃ m, n = m + 1 := ⟨n - 1, by simp at h; omega⟩
    have hc : c ≠ '\n' := fun h => hn (by simp [h])
    have hn2 : '\n' ∉ chunk := fun h => hn (by simp [h])
    simp [fgets_read, hc, ih m (by simpa using h) hn2]

theorem read_chunks_cons (n : Nat) (fp l rest : List Char)
    (h : fgets MAX_LINE fp = some (l, rest)) :
    read_chunks (n + 1) fp = l :: read_chunks n rest := by
  simp [read_chunks, h]

theorem read_chunks_nil (n : Nat) : read_chunks n [] = [] := by
  cases n <;> simp [read_chunks, fgets]

theorem length_replicate_a : (List.replicate 4095 'a').length = MAX_LINE - 1 := by
  rw [List.length_replicate]
  rfl

theorem newline_not_mem_replicate_a : '\n' ∉ List.replicate 4095 'a' :=
  fun h => absurd (List.eq_of_mem_replicate h) (by decide)

/-- A line of exactly `MAX_LINE - 1` characters before its newline fills the
buffer without the newline: the newline is read by the next call of `fgets` and
makes a row of its own, with one empty field. -/
theorem full_buffer_line_adds_empty_row :
    (read_table (List.replicate 4095 'a' ++ ['\n'])).nrows = 2 ∧
    (read_table (List.replicate 4095 'a' ++ ['\n'])).rows.getD 1 [] = [[]] := by
  have hf : fgets MAX_LINE (List.replicate 4095 'a' ++ ['\n'])
      = some (List.replicate 4095 'a', ['\n']) := by
    have hne : List.replicate 4095 'a' ++ ['\n'] ≠ [] :=
      List.append_ne_nil_of_right_ne_nil _ (List.cons_ne_nil _ _)
    rw [fgets, if_neg hne,
      fgets_read_chunk _ _ _ length_replicate_a newline_not_mem_replicate_a]
  have hf2 : fgets MAX_LINE ['\n'] = some (['\n'], []) := by decide
  have hc : read_chunks MAX_ROWS (List.replicate 4095 'a' ++ ['\n'])
      = [List.replicate 4095 'a', ['\n']] := by
    show read_chunks (1022 + 1 + 1) _ = _
    rw [read_chunks_cons _ _ _ _ hf, read_chunks_cons _ _ _ _ hf2, read_chunks_nil]
  obtain ⟨hrows, hn, _⟩ := read_table_spec (List.replicate 4095 'a' ++ ['\n'])
  rw [hc] at hrows
  rw [hn, hrows]
  exact ⟨rfl, by decide⟩

/-- Any amount of fuel above `MAX_ROWS` gives the table of `read_table`. -/
theorem read_table_fuel (fp : List Char) (extra : Nat) :
    read_loop (MAX_ROWS + 1 + extra) fp Table.init = read_table fp := by
  induction extra with
  | zero => rfl
  | succ n ih =>
    rw [← ih, ← Nat.add_assoc]
    exact read_loop_fuel _ fp Table.init (by simp [Table.init]; omega)

/-- The separator line in closed form: the run of dashes of column `i` has
`min col_width[i] 120` dashes. -/
theorem print_md_sep_eq (ncols : Nat) (col_width : List Nat) :
    print_md_sep ncols col_width
      = '|' :: (((List.range ncols).map
          (fun i => ' ' :: (List.replicate (min (col_width.getD i 0) 120) '-' ++ [' ', '|']))).flatten
        ++ ['\n']) := by
  unfold print_md_sep printf_sep dashes
  simp only [List.take_replicate]


/-! ## Claims about the line splitter -/

/-- C1, counterexample: with room for more fields, the last field returned for
the line `a,b\n` is `b`, not the text `b\n` that follows the splitting comma. -/
theorem split_csv_line_last_field_trimmed :
    NUL ∉ "a,b\n".toList ∧
    (splitCommas "a,b\n".toList).length < MAX_COLS ∧
    (split_fields "a,b\n".toList MAX_COLS).getD 1 [] = "b".toList ∧
    between "a,b\n".toList (splitCommas "a,b\n".toList) 1 = "b\n".toList ∧
    (split_fields "a,b\n".toList MAX_COLS).getD 1 []
      ≠ between "a,b\n".toList (splitCommas "a,b\n".toList) 1 := by
  decide

/-- C1, amended: for every line and every `max_cols` larger than the number of
splitting commas (commas preceded by an even number of double quotes), the
number of fields is one more than the number of such commas, field `k` is the
text between the `k`-th and the `(k+1)`-th such comma, except that the last
field lacks a final `\n` or `\r` when `max_cols` exceeds the number of fields;
a comma preceded by an odd number of double quotes is no splitting point, and
the empty line yields exactly one empty field. -/
theorem split_csv_line_splits_at_unquoted_commas (line : List Char) (max_cols : Nat)
    (hline : NUL ∉ line) (hmax : (splitCommas line).length < max_cols) :
    (split_fields line max_cols).length = (splitCommas line).length + 1 ∧
    (∀ k, k < (splitCommas line).length →
      (split_fields line max_cols).getD k [] = between line (splitCommas line) k) ∧
    (split_fields line max_cols).getD (splitCommas line).length []
      = (if (splitCommas line).length + 1 < max_cols then
          chop (between line (splitCommas line) (splitCommas line).length)
        else between line (splitCommas line) (splitCommas line).length) ∧
    (∀ i, line.get? i = some ',' → quotesBefore line i % 2 = 1 → i ∉ splitCommas line) ∧
    split_fields [] max_cols = [[]] := by
  have htake : (splitCommas line).take (max_cols - 1) = splitCommas line :=
    List.take_of_length_le (by omega)
  have h := split_fields_between line max_cols hline
  rw [htake] at h
  refine ⟨h.1, h.2.1, h.2.2, ?_, split_fields_nil max_cols⟩
  intro i _ hodd hmem
  have := (List.mem_filter.mp hmem).2
  simp only [isSplitComma, Bool.and_eq_true, beq_iff_eq] at this
  omega

theorem split_csv_line_splits_at_unquoted_commas_witness :
    (split_fields "\"x,y\",b,c\n".toList 8).length = 3 ∧
    (split_fields "\"x,y\",b,c\n".toList 8).getD 0 [] = "\"x,y\"".toList ∧
    (split_fields "\"x,y\",b,c\n".toList 8).getD 2 [] = "c".toList := by
  have h := split_csv_line_splits_at_unquoted_commas "\"x,y\",b,c\n".toList 8
    (by decide) (by decide)
  exact ⟨h.1, (h.2.1 0 (by decide)).trans (by decide), h.2.2.1.trans (by decide)⟩

/-- C2, counterexample: the line `"a,b",c` parses to the fields `"a,b"` (five
characters, both quotes kept) and `c`, and the quotes are printed in the cell. -/
theorem quoted_field_keeps_quotes_example :
    split_fields "\"a,b\",c".toList MAX_COLS ≠ ["a,b".toList, "c".toList] ∧
    ((split_fields "\"a,b\",c".toList MAX_COLS).getD 0 []).length = 5 ∧
    run "\"a,b\",c\n".toList
      = some ⟨0, "| \"a,b\" | c |\n| ----- | - |\n".toList, false⟩ := by
  decide

/-- C2, amended: `split_csv_line` keeps every double quote of the line: the
fields it returns hold as many `"` characters as the line, wrapping quotes
included; the line `"a,b",c` parses to exactly two fields, `"a,b"` with its two
quote characters (5 characters) and `c`, and the cell printed for the first is
`"a,b"` with its quotes. -/
theorem split_csv_line_keeps_quotes (line : List Char) (max_cols : Nat)
    (hline : NUL ∉ line) :
    quoteCount (split_fields line max_cols) = line.count '"' ∧
    split_fields "\"a,b\",c".toList MAX_COLS = ["\"a,b\"".toList, "c".toList] ∧
    run "\"a,b\",c\n".toList
      = some ⟨0, "| \"a,b\" | c |\n| ----- | - |\n".toList, false⟩ :=
  ⟨quoteCount_split_fields line max_cols hline, by decide, by decide⟩

theorem split_csv_line_keeps_quotes_witness :
    quoteCount (split_fields "\"a,b\",\"c\"\n".toList 2) = 4 :=
  (split_csv_line_keeps_quotes "\"a,b\",\"c\"\n".toList 2 (by decide)).1

/-- C9: for every line and every `max_cols >= 1`, `split_csv_line` returns at
least one and at most `max_cols` fields; when the line has `max_cols - 1` or
more splitting commas it returns exactly `max_cols` fields and the last one is
the whole rest of the line after the `(max_cols-1)`-th splitting comma (the
whole line when `max_cols = 1`), later commas included. -/
theorem split_csv_line_field_count (line : List Char) (max_cols : Nat)
    (hline : NUL ∉ line) (hmax : 1 ≤ max_cols) :
    1 ≤ (split_fields line max_cols).length ∧
    (split_fields line max_cols).length ≤ max_cols ∧
    (split_csv_line line max_cols).2.length = (split_fields line max_cols).length ∧
    (max_cols - 1 ≤ (splitCommas line).length →
      (split_fields line max_cols).length = max_cols ∧
      (split_fields line max_cols).getD (max_cols - 1) []
        = line.drop (if max_cols = 1 then 0
            else (splitCommas line).getD (max_cols - 2) 0 + 1)) := by
  obtain ⟨h1, h2⟩ := length_split_fields line max_cols hline
  refine ⟨h1, by omega, by simp [split_fields, fields], ?_⟩
  intro hn
  obtain ⟨hl, _, hlast⟩ := split_fields_between line max_cols hline
  have hlen : ((splitCommas line).take (max_cols - 1)).length = max_cols - 1 := by
    rw [List.length_take]; omega
  rw [hlen] at hl hlast
  have hk : max_cols - 1 + 1 = max_cols := by omega
  rw [hk] at hl hlast
  refine ⟨hl, ?_⟩
  rw [hlast, if_neg (Nat.lt_irrefl _)]
  unfold between
  have hstop : ((splitCommas line).take (max_cols - 1)).getD (max_cols - 1) line.length
      = line.length := by
    rw [List.getD_eq_getElem?_getD, List.getElem?_eq_none (by omega)]
    rfl
  rw [hstop, List.take_length]
  by_cases h1c : max_cols = 1
  · simp [h1c]
  · have hk0 : ¬ (max_cols - 1 = 0) := by omega
    rw [if_neg hk0, if_neg h1c]
    have : ((splitCommas line).take (max_cols - 1)).getD (max_cols - 1 - 1) 0
        = (splitCommas line).getD (max_cols - 2) 0 := by
      have e : max_cols - 1 - 1 = max_cols - 2 := by omega
      rw [e, List.getD_eq_getElem?_getD, List.getD_eq_getElem?_getD,
        List.getElem?_take_of_lt (by omega)]
    rw [this]

theorem split_csv_line_field_count_witness :
    (split_fields "a,b,c,d\n".toList 3).length = 3 ∧
    (split_fields "a,b,c,d\n".toList 3).getD 2 [] = "c,d\n".toList := by
  have h := (split_csv_line_field_count "a,b,c,d\n".toList 3 (by decide) (by decide)).2.2.2
    (by decide)
  refine ⟨h.1, ?_⟩
  rw [h.2]
  decide


/-! ## Claims about the table builder and the renderer -/

/-- C3, amended: for every input of at most `MAX_ROWS` lines, each of which, its
newline counted, is shorter than `MAX_LINE` characters (so that `fgets` returns
it whole), the rows of the table are the parsed input lines, `ncols` is the
field count of the first, and the width `col_width[i]` used for rendering is,
for every column index `i` (so for every `i` below the first row's field
count), the maximum length of the field at index `i` over the input rows that
have one. -/
theorem col_width_eq_max_field_length (input : List Char)
    (hrows : (input_lines input).length ≤ MAX_ROWS)
    (hfit : ∀ l ∈ input_lines input, l.length < MAX_LINE) (i : Nat) :
    (read_table input).rows = (input_lines input).map parse_line ∧
    (read_table input).ncols = (((input_lines input).map parse_line).getD 0 []).length ∧
    (read_table input).col_width.getD i 0
      = max_field_length ((input_lines input).map parse_line) i := by
  have hr := read_table_rows_of_fit input hfit
  rw [List.take_of_length_le hrows] at hr
  obtain ⟨_, _, _, hnc, _, hw⟩ := read_table_spec input
  rw [hr] at hnc hw
  exact ⟨hr, hnc, hw i⟩

theorem col_width_eq_max_field_length_witness :
    (read_table "a,bb\nxxx,y,zzzz\n".toList).col_width.getD 0 0 = 3 ∧
    (read_table "a,bb\nxxx,y,zzzz\n".toList).col_width.getD 1 0 = 2 := by
  have h0 := col_width_eq_max_field_length "a,bb\nxxx,y,zzzz\n".toList
    (by decide) (by decide) 0
  have h1 := col_width_eq_max_field_length "a,bb\nxxx,y,zzzz\n".toList
    (by decide) (by decide) 1
  exact ⟨h0.2.2.trans (by decide), h1.2.2.trans (by decide)⟩

/-- C4: for every input in which no row has fewer fields than the first row,
the run succeeds and its output is the header line, the separator line and the
body lines; the header line and every body line is `|`, then for each column
`i` below `ncols` one space, the field `i` of the row, exactly
`col_width[i] - length(field i)` spaces and ` |`, then a newline; no field is
longer than its column is wide, so each is left-justified in `col_width[i]`
columns and none is truncated.  The input `a,bb,ccc\nx,y,z\n` gives the three
lines `| a | bb | ccc |`, `| - | -- | --- |`, `| x | y  | z   |`. -/
theorem rows_rendered_left_justified (input : List Char)
    (hfull : ∀ row ∈ (read_table input).rows, (read_table input).ncols ≤ row.length) :
    run input = some ⟨0, (table_lines (read_table input)).flatten, false⟩ ∧
    (∀ row ∈ (read_table input).rows,
      print_md_row row (read_table input).ncols (read_table input).col_width
        = some (['|'] ++ ((List.range (read_table input).ncols).map
            (fun i => [' '] ++ row.getD i []
              ++ List.replicate
                  ((read_table input).col_width.getD i 0 - (row.getD i []).length) ' '
              ++ [' ', '|'])).flatten ++ ['\n']) ∧
      ∀ i, i < (read_table input).ncols →
        (row.getD i []).length ≤ (read_table input).col_width.getD i 0) ∧
    run "a,bb,ccc\nx,y,z\n".toList
      = some ⟨0, "| a | bb | ccc |\n| - | -- | --- |\n| x | y  | z   |\n".toList, false⟩ := by
  refine ⟨run_some input hfull, ?_, by decide⟩
  intro row hrow
  refine ⟨print_md_row_some row _ _ (hfull row hrow), ?_⟩
  intro i hi
  rw [(read_table_spec input).2.2.2.2.2 i]
  exact le_max_field_length _ i row hrow (by have := hfull row hrow; omega)

theorem rows_rendered_left_justified_witness :
    run "a,b\nccc,d,e\n".toList
      = some ⟨0, "| a   | b |\n| --- | - |\n| ccc | d |\n".toList, false⟩ :=
  (rows_rendered_left_justified "a,b\nccc,d,e\n".toList (by decide)).1.trans (by decide)

set_option maxRecDepth 100000 in
/-- C5, the code at the failing input: for a single line of 121 letters the
column is 121 wide and the header cell holds 121 characters, but the separator
line has only 120 dashes: `print_md_sep` prints at most the 120 dashes of its
string literal. -/
theorem separator_capped_at_120_dashes :
    (read_table (List.replicate 121 'a' ++ ['\n'])).col_width.getD 0 0 = 121 ∧
    print_md_sep 1 [121] = ['|', ' '] ++ List.replicate 120 '-' ++ [' ', '|', '\n'] ∧
    run (List.replicate 121 'a' ++ ['\n'])
      = some ⟨0, (['|', ' '] ++ List.replicate 121 'a' ++ [' ', '|', '\n'])
          ++ (['|', ' '] ++ List.replicate 120 '-' ++ [' ', '|', '\n']), false⟩ := by
  decide


/-- C6, amended: for every input of `N` lines with `1 <= N <= MAX_ROWS`, each of
which, its newline counted, is shorter than `MAX_LINE` characters (so that
`fgets` returns it whole), and no row with fewer fields than the first, the run
succeeds and its output consists of exactly `N + 1` lines, every one ended by a
newline: the header line of row 0, the separator line, and the body lines of
rows `1..N-1` in input order. -/
theorem output_line_count (input : List Char)
    (hN : 1 ≤ (input_lines input).length)
    (hrows : (input_lines input).length ≤ MAX_ROWS)
    (hfit : ∀ l ∈ input_lines input, l.length < MAX_LINE)
    (hfull : ∀ row ∈ (read_table input).rows, (read_table input).ncols ≤ row.length) :
    ∃ out, run input = some ⟨0, out, false⟩ ∧
      (input_lines out).length = (input_lines input).length + 1 ∧
      (∀ l ∈ input_lines out, l.getLast? = some '\n') ∧
      input_lines out
        = row_line (read_table input).ncols (read_table input).col_width
            (parse_line ((input_lines input).getD 0 []))
          :: print_md_sep (read_table input).ncols (read_table input).col_width
          :: (input_lines input).tail.map
              (fun l => row_line (read_table input).ncols (read_table input).col_width
                (parse_line l)) := by
  refine ⟨_, run_some input hfull, ?_⟩
  have hr := read_table_rows_of_fit input hfit
  rw [List.take_of_length_le hrows] at hr
  have hlines := input_lines_table_lines input
  have hnn := read_table_no_newline input
  rw [hlines]
  unfold table_lines
  rw [hr] at hnn ⊢
  cases hL : input_lines input with
  | nil => rw [hL] at hN; simp at hN
  | cons l ls =>
    rw [hL] at hnn
    simp only [List.map_cons, List.length_cons, List.length_map, List.getD_cons_zero,
      List.tail_cons, List.map_map, true_and]
    refine ⟨?_, rfl⟩
    intro x hx
    simp only [List.mem_cons, List.mem_map] at hx
    have hshape : ∃ y, x = y ++ ['\n'] ∧ '\n' ∉ y := by
      rcases hx with rfl | rfl | ⟨r, hr2, rfl⟩
      · exact row_line_shape _ _ _ (hnn _ (by simp))
      · exact print_md_sep_shape _ _
      · exact row_line_shape _ _ _ (hnn _ (List.mem_map.mpr ⟨r, by simp [hr2], rfl⟩))
    obtain ⟨y, rfl, _⟩ := hshape
    simp

theorem output_line_count_witness :
    ∃ out, run "a,bb,ccc\nx,y,z\n".toList = some ⟨0, out, false⟩ ∧
      (input_lines out).length = 3 := by
  obtain ⟨out, h1, h2, _⟩ := output_line_count "a,bb,ccc\nx,y,z\n".toList
    (by decide) (by decide) (by decide) (by decide)
  exact ⟨out, h1, h2.trans (by decide)⟩

/-- C7, counterexample: a line of 4096 characters (4095 letters `a`, then `b`)
contributes two rows, and the character beyond the bound is the field of the
second row. -/
theorem long_line_excess_becomes_next_row :
    (read_table (List.replicate 4095 'a' ++ ['b', '\n'])).nrows = 2 ∧
    (read_table (List.replicate 4095 'a' ++ ['b', '\n'])).rows.getD 1 [] = [['b']] := by
  have hf : fgets MAX_LINE (List.replicate 4095 'a' ++ ['b', '\n'])
      = some (List.replicate 4095 'a', ['b', '\n']) := by
    have hne : List.replicate 4095 'a' ++ ['b', '\n'] ≠ [] :=
      List.append_ne_nil_of_right_ne_nil _ (List.cons_ne_nil _ _)
    rw [fgets, if_neg hne,
      fgets_read_chunk _ _ _ length_replicate_a newline_not_mem_replicate_a]
  have hf2 : fgets MAX_LINE ['b', '\n'] = some (['b', '\n'], []) := by decide
  have hc : read_chunks MAX_ROWS (List.replicate 4095 'a' ++ ['b', '\n'])
      = [List.replicate 4095 'a', ['b', '\n']] := by
    show read_chunks (1022 + 1 + 1) _ = _
    rw [read_chunks_cons _ _ _ _ hf, read_chunks_cons _ _ _ _ hf2, read_chunks_nil]
  obtain ⟨hrows, hn, _⟩ := read_table_spec (List.replicate 4095 'a' ++ ['b', '\n'])
  rw [hc] at hrows
  rw [hn, hrows]
  exact ⟨rfl, by decide⟩

/-- C7, amended: an input line longer than the bound loses no character:
`fgets` returns its first `MAX_LINE - 1 = 4095` characters, which make one row,
and leaves the rest of the line unread, so the reading loop continues at the
4096th character and the excess characters are read as the following row or
rows (while fewer than `MAX_ROWS` rows have been read). -/
theorem long_line_read_in_pieces (chunk rest : List Char) (t : Table) (fuel : Nat)
    (hlen : chunk.length = MAX_LINE - 1) (hnl : '\n' ∉ chunk)
    (ht : t.nrows < MAX_ROWS) :
    fgets MAX_LINE (chunk ++ rest) = some (chunk, rest) ∧
    read_loop (fuel + 1) (chunk ++ rest) t = read_loop fuel rest (read_row t chunk) ∧
    (read_row t chunk).rows = t.rows ++ [parse_line chunk] := by
  have hne : chunk ++ rest ≠ [] := by
    intro h
    have : chunk.length = 0 := by
      rw [(List.append_eq_nil.mp h).1]; rfl
    rw [hlen] at this
    simp [MAX_LINE] at this
  have hf : fgets MAX_LINE (chunk ++ rest) = some (chunk, rest) := by
    rw [fgets, if_neg hne, fgets_read_chunk _ _ _ hlen hnl]
  refine ⟨hf, ?_, by simp [read_row, store_row_eq]⟩
  rw [read_loop, hf]
  simp [ht]

theorem long_line_read_in_pieces_witness :
    read_loop (MAX_ROWS + 1) (List.replicate 4095 'a' ++ ['b', '\n']) Table.init
      = read_loop MAX_ROWS ['b', '\n'] (read_row Table.init (List.replicate 4095 'a')) :=
  (long_line_read_in_pieces (List.replicate 4095 'a') ['b', '\n'] Table.init MAX_ROWS
    length_replicate_a newline_not_mem_replicate_a (by decide)).2.1

/-- C8: for every input with more than `MAX_ROWS` lines the lines after the
1024th are ignored: the table built (rows, column count and column widths) and
the outcome of the run, its output included, are those of the input made of
the first `MAX_ROWS` lines only. -/
theorem rows_beyond_MAX_ROWS_ignored (input : List Char)
    (h : MAX_ROWS < (input_lines input).length) :
    read_table input = read_table ((input_lines input).take MAX_ROWS).flatten ∧
    run input = run ((input_lines input).take MAX_ROWS).flatten ∧
    ∀ argv fopen, argv.length ≤ 1 →
      main argv fopen input = main argv fopen ((input_lines input).take MAX_ROWS).flatten := by
  have hsplit : input = ((input_lines input).take MAX_ROWS).flatten
      ++ ((input_lines input).drop MAX_ROWS).flatten := by
    rw [← List.flatten_append, List.take_append_drop, flatten_input_lines]
  have hcount := count_newline_take_lines input MAX_ROWS h
  have ht : read_table input = read_table ((input_lines input).take MAX_ROWS).flatten := by
    conv_lhs => rw [hsplit]
    unfold read_table
    exact read_loop_append _ _ _ _ (by simpa [Table.init] using hcount)
  have hrun : run input = run ((input_lines input).take MAX_ROWS).flatten := by
    unfold run
    rw [ht]
  refine ⟨ht, hrun, ?_⟩
  intro argv fopen hargc
  have : ¬ argv.length > 1 := by omega
  simp only [main, this, if_false]
  exact hrun

theorem input_lines_replicate_newline (n : Nat) :
    input_lines (List.replicate n '\n') = List.replicate n ['\n'] := by
  induction n with
  | zero => rfl
  | succ n ih => simp [List.replicate_succ, input_lines, ih]

theorem rows_beyond_MAX_ROWS_ignored_witness :
    run (List.replicate 1030 '\n')
      = run ((input_lines (List.replicate 1030 '\n')).take MAX_ROWS).flatten :=
  (rows_beyond_MAX_ROWS_ignored (List.replicate 1030 '\n')
    (by rw [input_lines_replicate_newline, List.length_replicate]; decide)).2.1

/-- C10: the exit status is 1 exactly when an input path was given and could
not be opened, and then nothing is written to standard output (no row is read
or rendered); in every other run that ends (one whose rendering reads stored
fields only) the exit status is 0, and a run in which no row has fewer fields
than the first does end. -/
theorem exit_status_one_iff_open_fails (argv : List String)
    (fopen : String → Option (List Char)) (stdin : List Char) :
    (opened_input argv fopen stdin = none ↔ (1 < argv.length ∧ fopen (argv.getD 1 "") = none)) ∧
    (opened_input argv fopen stdin = none →
      main argv fopen stdin = some ⟨1, [], true⟩) ∧
    (∀ o, main argv fopen stdin = some o →
      (o.status = 1 ↔ opened_input argv fopen stdin = none)) ∧
    (∀ o, main argv fopen stdin = some o → opened_input argv fopen stdin ≠ none →
      o.status = 0) ∧
    (∀ fp, opened_input argv fopen stdin = some fp →
      (∀ row ∈ (read_table fp).rows, (read_table fp).ncols ≤ row.length) →
      main argv fopen stdin = some ⟨0, (table_lines (read_table fp)).flatten, false⟩) := by
  have hmain : main argv fopen stdin
      = match opened_input argv fopen stdin with
        | none => some ⟨1, [], true⟩
        | some fp => run fp := by
    unfold main opened_input
    split_ifs
    · cases fopen (argv.getD 1 "") <;> rfl
    · rfl
  have hrun : ∀ fp o, run fp = some o → o.status = 0 := by
    intro fp o ho
    unfold run at ho
    simp only at ho
    split at ho
    · simp only [Option.some.injEq] at ho
      rw [← ho]
    · simp at ho
  refine ⟨?_, ?_, ?_, ?_, ?_⟩
  · unfold opened_input
    split_ifs with h
    · simp [h]
    · simp [h]
  · intro h
    rw [hmain, h]
  · intro o ho
    rw [hmain] at ho
    cases hop : opened_input argv fopen stdin with
    | none =>
      rw [hop] at ho
      simp only [Option.some.injEq] at ho
      simp [← ho]
    | some fp =>
      rw [hop] at ho
      simp [hrun fp o ho]
  · intro o ho hne
    rw [hmain] at ho
    cases hop : opened_input argv fopen stdin with
    | none => exact absurd hop hne
    | some fp =>
      rw [hop] at ho
      exact hrun fp o ho
  · intro fp hop hfull
    rw [hmain, hop]
    exact run_some fp hfull

theorem exit_status_one_iff_open_fails_witness :
    main ["csv2table", "missing.csv"] (fun _ => none) "a,b\n".toList = some ⟨1, [], true⟩ ∧
    main ["csv2table"] (fun _ => none) "a,b\n".toList
      = some ⟨0, "| a | b |\n| - | - |\n".toList, false⟩ :=
  ⟨(exit_status_one_iff_open_fails ["csv2table", "missing.csv"] (fun _ => none)
      "a,b\n".toList).2.1 (by decide),
   ((exit_status_one_iff_open_fails ["csv2table"] (fun _ => none) "a,b\n".toList).2.2.2.2
      "a,b\n".toList (by decide) (by decide)).trans (by decide)⟩

/-! ## The terminator at the end of a line -/

theorem is_term_iff (t : Char) : is_term t = true ↔ t = '\n' ∨ t = '\r' := by
  simp [is_term]

/-- What chopping does to the pieces of a line, by the last character of the line. -/
theorem mapLast_chop_of_join (F : List (List Char)) (line : List Char) (hF : F ≠ [])
    (hj : joinWith ',' F = line) :
    ((∀ t, line.getLast? = some t → is_term t = false) → mapLast chop F = F) ∧
    (∀ t, line.getLast? = some t → is_term t = true →
      ∃ Fi g, F = Fi ++ [g ++ [t]] ∧ mapLast chop F = Fi ++ [g] ∧
        joinWith ',' (Fi ++ [g]) = line.dropLast) := by
  obtain ⟨Fi, last, rfl⟩ : ∃ Fi last, F = Fi ++ [last] :=
    ⟨F.dropLast, F.getLast hF, (List.dropLast_append_getLast hF).symm⟩
  rw [mapLast_append_singleton]
  rcases List.eq_nil_or_concat last with rfl | ⟨g, t0, rfl⟩
  · refine ⟨fun _ => by rw [chop_nil], ?_⟩
    intro t ht hterm
    exfalso
    by_cases hFi : Fi = []
    · subst hFi
      simp [joinWith] at hj
      rw [hj] at ht
      simp at ht
    · rw [joinWith_append_nil _ _ hFi] at hj
      rw [← hj] at ht
      simp at ht
      rw [← ht] at hterm
      exact absurd hterm (by decide)
  · simp only [List.concat_eq_append] at hj ⊢
    rw [joinWith_append_last] at hj
    have hlast : line.getLast? = some t0 := by rw [← hj]; simp
    rw [chop_concat]
    refine ⟨?_, ?_⟩
    · intro h
      rw [if_neg (by rw [h t0 hlast]; simp)]
    · intro t ht hterm
      rw [hlast] at ht
      simp only [Option.some.injEq] at ht
      subst ht
      rw [if_pos hterm]
      refine ⟨Fi, g, rfl, rfl, ?_⟩
      rw [← hj]
      simp

/-! ## Further claims about the line splitter -/

/-- C12, the code at the failing input: with `max_cols = 2` the scan of the line
`a,b\n` stops right after the comma; the trim then tests the byte before the
scan position, which is the `NUL` just written over the comma, so nothing is
trimmed and the last field returned is `b\n`, still ending with the line's
terminator. -/
theorem split_csv_line_keeps_terminator_at_bound :
    NUL ∉ "a,b\n".toList ∧ "a,b\n".toList.getLast? = some '\n' ∧ 1 ≤ 2 ∧
    split_fields "a,b\n".toList 2 = ["a".toList, "b\n".toList] ∧
    ((split_fields "a,b\n".toList 2).getD 1 []).getLast? = some '\n' ∧
    (split_fields "a,b\n".toList 2).getD 1 []
      ≠ (between "a,b\n".toList (splitCommas "a,b\n".toList) 1).dropLast := by
  decide

/-- Where the scan reaches the end of the line the trailing terminator is
stripped: for every line whose last character is `\n` or `\r` and every
`max_cols` larger than the number of fields returned (one more than the number
of splitting commas), the text after the last splitting comma ends with the
terminator, the last field returned is that text with the final character
removed, and the fields joined with `,` give the line without its final
character. -/
theorem split_csv_line_strips_terminator (line : List Char) (max_cols : Nat) (t : Char)
    (hline : NUL ∉ line) (hterm : t = '\n' ∨ t = '\r') (hlast : line.getLast? = some t)
    (hmax : (splitCommas line).length + 1 < max_cols) :
    (split_fields line max_cols).length = (splitCommas line).length + 1 ∧
    (between line (splitCommas line) (splitCommas line).length).getLast? = some t ∧
    (split_fields line max_cols).getD (splitCommas line).length []
      = (between line (splitCommas line) (splitCommas line).length).dropLast ∧
    joinWith ',' (split_fields line max_cols) = line.dropLast := by
  have htake : (splitCommas line).take (max_cols - 1) = splitCommas line :=
    List.take_of_length_le (by omega)
  obtain ⟨hl, hj⟩ := splitAbs_between line (max_cols - 1) false
  rw [← splitCommas_eq, htake] at hl hj
  have hne := splitAbs_ne_nil (max_cols - 1) false line
  have hjoin := joinWith_splitAbs (max_cols - 1) false line
  obtain ⟨Fi, g, hF, hchop, hdrop⟩ :=
    (mapLast_chop_of_join _ line hne hjoin).2 t hlast ((is_term_iff t).mpr hterm)
  have hn : Fi.length = (splitCommas line).length := by
    have := congrArg List.length hF
    rw [hl] at this
    simpa using this.symm
  have hbetween : between line (splitCommas line) (splitCommas line).length = g ++ [t] := by
    rw [← hj _ (Nat.le_refl _), hF, ← hn]
    simp [List.getD_eq_getElem?_getD]
  rw [split_fields_eq line max_cols hline, if_pos (by rw [hl]; exact hmax), hchop, hbetween]
  refine ⟨by simp [hn], by simp, ?_, hdrop⟩
  rw [← hn]
  simp [List.getD_eq_getElem?_getD]

theorem split_csv_line_strips_terminator_witness :
    (split_fields "a,\"b,c\"\r".toList MAX_COLS).length = 2 ∧
    joinWith ',' (split_fields "a,\"b,c\"\r".toList MAX_COLS) = "a,\"b,c\"".toList := by
  have h := split_csv_line_strips_terminator "a,\"b,c\"\r".toList MAX_COLS '\r'
    (by decide) (Or.inr rfl) (by decide) (by decide)
  exact ⟨h.1.trans (by decide), h.2.2.2.trans (by decide)⟩

/-- C16: splitting loses no characters: for every line that does not end in
`\n` or `\r` and every `max_cols` (in particular every `max_cols >= 1`), the
fields returned by `split_csv_line`, joined with `,`, are the line, character
for character, whether or not the field-count bound was reached. -/
theorem split_then_join (line : List Char) (max_cols : Nat)
    (hline : NUL ∉ line)
    (hend : line.getLast? ≠ some '\n' ∧ line.getLast? ≠ some '\r') :
    joinWith ',' (split_fields line max_cols) = line := by
  have hne := splitAbs_ne_nil (max_cols - 1) false line
  have hjoin := joinWith_splitAbs (max_cols - 1) false line
  have hchop := (mapLast_chop_of_join _ line hne hjoin).1 (by
    intro t ht
    cases hterm : is_term t with
    | false => rfl
    | true =>
      rcases (is_term_iff t).mp hterm with rfl | rfl
      · exact absurd ht hend.1
      · exact absurd ht hend.2)
  rw [split_fields_eq line max_cols hline]
  split_ifs
  · rw [hchop, hjoin]
  · exact hjoin

theorem split_then_join_witness :
    joinWith ',' (split_fields "a,\"b,c\",d,e".toList 3) = "a,\"b,c\",d,e".toList ∧
    split_fields "a,\"b,c\",d,e".toList 3 = ["a".toList, "\"b,c\"".toList, "d,e".toList] :=
  ⟨split_then_join "a,\"b,c\",d,e".toList 3 (by decide) (by decide), by decide⟩

/-! ## Further claims about the table builder -/

/-- C15: the width array starts as `MAX_COLS` zeros, and processing a row never
lowers an entry: for every table state with its `MAX_COLS` widths, every line
read and every column index `i` (so every `i < MAX_COLS`), `col_width[i]` after
the row is at least `col_width[i]` before it, the array keeps its size, and the
entries at indices at or beyond that row's field count are unchanged. -/
theorem col_width_monotone (t : Table) (line : List Char) (i : Nat)
    (hw : t.col_width.length = MAX_COLS) :
    Table.init.col_width = List.replicate MAX_COLS 0 ∧
    (read_row t line).col_width.length = MAX_COLS ∧
    t.col_width.getD i 0 ≤ (read_row t line).col_width.getD i 0 ∧
    ((parse_line line).length ≤ i →
      (read_row t line).col_width.getD i 0 = t.col_width.getD i 0) := by
  obtain ⟨h1, h2⟩ := read_row_col_width t line hw
  refine ⟨rfl, h1, ?_, ?_⟩
  · rw [h2 i]
    split_ifs
    · exact le_max_left _ _
    · exact Nat.le_refl _
  · intro hi
    rw [h2 i, if_neg (by omega)]

theorem col_width_monotone_witness :
    (read_row Table.init "ab,c".toList).col_width.length = MAX_COLS ∧
    Table.init.col_width.getD 0 0 ≤ (read_row Table.init "ab,c".toList).col_width.getD 0 0 ∧
    (read_row Table.init "ab,c".toList).col_width.getD 0 0 = 2 :=
  ⟨(col_width_monotone Table.init "ab,c".toList 0 (by simp [Table.init])).2.1,
   (col_width_monotone Table.init "ab,c".toList 0 (by simp [Table.init])).2.2.1, by decide⟩

/-! ## Terminators never reach the table -/

theorem takeWhile_append_reject {α : Type} (p : α → Bool) (pre : List α) (c : α)
    (rest : List α) (hc : p c = false) :
    (pre ++ c :: rest).takeWhile p = pre.takeWhile p := by
  induction pre with
  | nil => simp [List.takeWhile_cons, hc]
  | cons a pre ih =>
    simp only [List.cons_append, List.takeWhile_cons]
    split
    · rw [ih]
    · rfl

theorem cut_append_terminator (pre rest : List Char) (c : Char) (hc : c = '\r' ∨ c = '\n') :
    cut (pre ++ c :: rest) = cut pre := by
  unfold cut
  apply takeWhile_append_reject
  rcases hc with rfl | rfl <;> decide

theorem parse_line_no_terminator (line : List Char) :
    ∀ f ∈ parse_line line, '\n' ∉ f ∧ '\r' ∉ f := by
  intro f hf
  rw [parse_line_eq] at hf
  have hsub := split_fields_subset _ _ (not_mem_take_cut line _ NUL (Or.inl rfl)) f hf
  exact ⟨fun hn => not_mem_take_cut line MAX_LINE '\n' (Or.inr (Or.inr rfl)) (hsub _ hn),
    fun hn => not_mem_take_cut line MAX_LINE '\r' (Or.inr (Or.inl rfl)) (hsub _ hn)⟩

theorem cell_not_mem (c : Char) (w : Nat) (s : List Char) (h1 : c ≠ ' ') (h2 : c ≠ '|')
    (hs : c ∉ s) : c ∉ cell w s := by
  unfold cell
  simp only [List.mem_append, List.mem_cons, List.mem_replicate, not_or]
  simp [hs, h1, h2]

theorem row_line_shape_of (c : Char) (ncols : Nat) (w : List Nat) (row : List (List Char))
    (h1 : c ≠ ' ') (h2 : c ≠ '|') (hrow : ∀ f ∈ row, c ∉ f) :
    ∃ x, row_line ncols w row = x ++ ['\n'] ∧ c ∉ x := by
  refine ⟨['|'] ++ ((List.range ncols).map
    (fun i => cell (w.getD i 0) (row.getD i []))).flatten, rfl, ?_⟩
  simp only [List.mem_append, List.mem_flatten, List.mem_map, not_or]
  refine ⟨by simpa using h2, ?_⟩
  rintro ⟨l, ⟨i, _, rfl⟩, hl⟩
  refine cell_not_mem c _ _ h1 h2 ?_ hl
  by_cases hi : i < row.length
  · exact hrow _ (getD_mem_of_lt _ _ _ hi)
  · rw [List.getD_eq_getElem?_getD, List.getElem?_eq_none (by omega)]
    simp

/-- C17: for every input, no field stored in the table contains `\n` or `\r`:
the line handed to the splitter ends before the first `\r` or `\n` of the line
read, so whatever follows one (text after a bare `\r` included) is discarded;
and every row that is rendered makes exactly one output line: its text holds no
`\n` or `\r` before the newline that ends it. -/
theorem stored_fields_have_no_terminator (input : List Char) :
    (∀ row ∈ (read_table input).rows, ∀ f ∈ row, '\n' ∉ f ∧ '\r' ∉ f) ∧
    (∀ (pre rest : List Char) (c : Char), c = '\r' ∨ c = '\n' →
      parse_line (pre ++ c :: rest) = parse_line pre) ∧
    (∀ row ∈ (read_table input).rows, ∀ out,
      print_md_row row (read_table input).ncols (read_table input).col_width = some out →
      ∃ x, out = x ++ ['\n'] ∧ '\n' ∉ x ∧ '\r' ∉ x) ∧
    parse_line "a\rb,c\n".toList = ["a".toList] := by
  have hrows : ∀ row ∈ (read_table input).rows, ∀ f ∈ row, '\n' ∉ f ∧ '\r' ∉ f := by
    intro row hrow f hf
    rw [(read_table_spec input).1] at hrow
    obtain ⟨l, _, rfl⟩ := List.mem_map.mp hrow
    exact parse_line_no_terminator l f hf
  refine ⟨hrows, ?_, ?_, by decide⟩
  · intro pre rest c hc
    rw [parse_line_eq, parse_line_eq, cut_append_terminator pre rest c hc]
  · intro row hrow out hout
    have hle : (read_table input).ncols ≤ row.length := by
      by_contra hlt
      rw [print_md_row_none _ _ _ (by omega)] at hout
      simp at hout
    rw [print_md_row_some _ _ _ hle] at hout
    simp only [Option.some.injEq] at hout
    subst hout
    refine ⟨['|'] ++ ((List.range (read_table input).ncols).map
      (fun i => cell ((read_table input).col_width.getD i 0) (row.getD i []))).flatten,
      rfl, ?_, ?_⟩
    · obtain ⟨x, hx, hnot⟩ := row_line_shape_of '\n' (read_table input).ncols
        (read_table input).col_width row (by decide) (by decide)
        (fun f hf => (hrows row hrow f hf).1)
      have : x = ['|'] ++ ((List.range (read_table input).ncols).map
          (fun i => cell ((read_table input).col_width.getD i 0) (row.getD i []))).flatten :=
        (List.append_cancel_right hx).symm
      rw [← this]
      exact hnot
    · obtain ⟨x, hx, hnot⟩ := row_line_shape_of '\r' (read_table input).ncols
        (read_table input).col_width row (by decide) (by decide)
        (fun f hf => (hrows row hrow f hf).2)
      have : x = ['|'] ++ ((List.range (read_table input).ncols).map
          (fun i => cell ((read_table input).col_width.getD i 0) (row.getD i []))).flatten :=
        (List.append_cancel_right hx).symm
      rw [← this]
      exact hnot

/-! ## Which cells rendering reads -/

theorem mem_rendered_cells (t : Table) (r i : Nat) :
    (r, i) ∈ rendered_cells t ↔ r < t.nrows ∧ i < t.ncols := by
  unfold rendered_cells
  split_ifs with h
  · simp only [List.mem_flatMap, List.mem_cons, List.mem_range', List.mem_map, List.mem_range,
      Prod.mk.injEq]
    constructor
    · rintro ⟨r2, hr2, i2, hi2, rfl, rfl⟩
      refine ⟨?_, hi2⟩
      rcases hr2 with rfl | ⟨k, hk, rfl⟩
      · exact h
      · omega
    · rintro ⟨hr, hi⟩
      refine ⟨r, ?_, i, hi, rfl, rfl⟩
      by_cases h0 : r = 0
      · exact Or.inl h0
      · exact Or.inr ⟨r - 1, by omega, by omega⟩
  · simp
    intro hr
    omega

theorem lookup_isSome (t : Table) (r i : Nat) :
    (lookup t r i).isSome = true ↔ i < (t.rows.getD r []).length := by
  unfold lookup
  rw [List.get?_eq_getElem?]
  constructor
  · intro h
    by_contra hlt
    rw [List.getElem?_eq_none (by omega)] at h
    simp at h
  · intro h
    rw [List.getElem?_eq_getElem h]
    rfl

theorem print_md_row_isSome (cols : List (List Char)) (ncols : Nat) (w : List Nat) :
    (print_md_row cols ncols w).isSome = true ↔ ncols ≤ cols.length := by
  constructor
  · intro h
    by_contra hlt
    rw [print_md_row_none _ _ _ (by omega)] at h
    simp at h
  · intro h
    rw [print_md_row_some _ _ _ h]
    rfl

theorem print_body_isSome (t : Table) (rs : List Nat) :
    (print_body t rs).isSome = true ↔ ∀ r ∈ rs, t.ncols ≤ (t.rows.getD r []).length := by
  induction rs with
  | nil => simp [print_body]
  | cons r rs ih =>
    rw [print_body]
    by_cases hr : t.ncols ≤ (t.rows.getD r []).length
    · rw [print_md_row_some _ _ _ hr]
      cases hb : print_body t rs with
      | none =>
        rw [hb] at ih
        simp only [Option.isSome_none, Bool.false_eq_true, false_iff] at ih ⊢
        intro h
        exact ih (fun r2 hr2 => h r2 (List.mem_cons_of_mem _ hr2))
      | some out =>
        rw [hb] at ih
        simp only [Option.isSome_some, true_iff] at ih ⊢
        intro r2 hr2
        rcases List.mem_cons.mp hr2 with rfl | hr2
        · exact hr
        · exact ih r2 hr2
    · rw [print_md_row_none _ _ _ (by omega)]
      simp only [Option.isSome_none, Bool.false_eq_true, false_iff]
      intro h
      exact hr (h r (by simp))

theorem print_table_isSome (t : Table) (hn : t.nrows = t.rows.length) :
    (print_table t).isSome = true ↔ ∀ r, r < t.nrows → t.ncols ≤ (t.rows.getD r []).length := by
  unfold print_table
  split_ifs with hpos
  · have hb := print_body_isSome t (List.range' 1 (t.nrows - 1))
    have hh := print_md_row_isSome (t.rows.getD 0 []) t.ncols t.col_width
    constructor
    · intro h r hr
      cases h0 : print_md_row (t.rows.getD 0 []) t.ncols t.col_width with
      | none => rw [h0] at h; simp at h
      | some header =>
        cases h1 : print_body t (List.range' 1 (t.nrows - 1)) with
        | none => rw [h0, h1] at h; simp at h
        | some body =>
          rw [h0] at hh
          rw [h1] at hb
          by_cases hr0 : r = 0
          · subst hr0
            exact hh.mp rfl
          · exact hb.mp rfl r (by simp [List.mem_range']; exact ⟨r - 1, by omega, by omega⟩)
    · intro h
      have h0 := hh.mpr (h 0 hpos)
      have h1 := hb.mpr (fun r hr => h r (by
        simp [List.mem_range'] at hr
        obtain ⟨k, hk, rfl⟩ := hr
        omega))
      cases h0' : print_md_row (t.rows.getD 0 []) t.ncols t.col_width with
      | none => rw [h0'] at h0; simp at h0
      | some header =>
        cases h1' : print_body t (List.range' 1 (t.nrows - 1)) with
        | none => rw [h1'] at h1; simp at h1
        | some body => rfl
  · simp only [Option.isSome_some, true_iff]
    intro r hr
    omega

theorem rows_full_iff (t : Table) (hn : t.nrows = t.rows.length) :
    (∀ row ∈ t.rows, t.ncols ≤ row.length)
      ↔ ∀ r, r < t.nrows → t.ncols ≤ (t.rows.getD r []).length := by
  constructor
  · intro h r hr
    exact h _ (getD_mem_of_lt _ _ _ (by omega))
  · intro h row hrow
    obtain ⟨r, hr, rfl⟩ := List.getElem_of_mem hrow
    have := h r (by omega)
    rwa [List.getD_eq_getElem?_getD, List.getElem?_eq_getElem hr] at this

/-- C13: rendering reads only stored fields exactly when no row has fewer
fields than the first.  The cells read are `rows[r][i]` for `r < nrows` and
`i < ncols`; all these lookups succeed if and only if every row has at least
`ncols` fields, and that is when the print block has a defined output.  When a
row `r` has fewer than `ncols` fields, rendering looks up its cell at the index
equal to that row's field count, which was never stored, so `print_md_row` of
that row and the whole print block have no defined result. -/
theorem rendering_reads_stored_fields_iff (input : List Char) :
    (∀ r i, (r, i) ∈ rendered_cells (read_table input)
      ↔ r < (read_table input).nrows ∧ i < (read_table input).ncols) ∧
    ((∀ row ∈ (read_table input).rows, (read_table input).ncols ≤ row.length)
      ↔ ∀ rc ∈ rendered_cells (read_table input),
          (lookup (read_table input) rc.1 rc.2).isSome = true) ∧
    ((∀ row ∈ (read_table input).rows, (read_table input).ncols ≤ row.length)
      ↔ (print_table (read_table input)).isSome = true) ∧
    (∀ r, r < (read_table input).nrows →
      ((read_table input).rows.getD r []).length < (read_table input).ncols →
      (r, ((read_table input).rows.getD r []).length) ∈ rendered_cells (read_table input) ∧
      lookup (read_table input) r ((read_table input).rows.getD r []).length = none ∧
      print_md_row ((read_table input).rows.getD r []) (read_table input).ncols
        (read_table input).col_width = none ∧
      print_table (read_table input) = none) := by
  have hn := (read_table_spec input).2.1
  have hfull := rows_full_iff (read_table input) hn
  have hpt := print_table_isSome (read_table input) hn
  refine ⟨mem_rendered_cells _, ?_, hfull.trans hpt.symm, ?_⟩
  · rw [hfull]
    constructor
    · rintro h ⟨r, i⟩ hrc
      obtain ⟨hr, hi⟩ := (mem_rendered_cells _ r i).mp hrc
      exact (lookup_isSome _ r i).mpr (by have := h r hr; omega)
    · intro h r hr
      by_contra hlt
      have hmem := (mem_rendered_cells (read_table input) r
        ((read_table input).rows.getD r []).length).mpr ⟨hr, by omega⟩
      have := (lookup_isSome _ _ _).mp (h _ hmem)
      simp at this
  · intro r hr hlt
    refine ⟨(mem_rendered_cells _ _ _).mpr ⟨hr, hlt⟩, ?_, print_md_row_none _ _ _ hlt, ?_⟩
    · unfold lookup
      rw [List.get?_eq_getElem?, List.getElem?_eq_none (Nat.le_refl _)]
    · cases hp : print_table (read_table input) with
      | none => rfl
      | some out =>
        have := hpt.mp (by rw [hp]; rfl) r hr
        omega

theorem rendering_reads_stored_fields_iff_witness :
    (1, 1) ∈ rendered_cells (read_table "a,b\nc\n".toList) ∧
    lookup (read_table "a,b\nc\n".toList) 1 1 = none ∧
    print_table (read_table "a,b\nc\n".toList) = none := by
  have h := (rendering_reads_stored_fields_iff "a,b\nc\n".toList).2.2.2 1 (by decide) (by decide)
  exact ⟨h.1, h.2.1, h.2.2.2⟩

/-! ## Empty input, and the release pass -/

theorem main_eq (argv : List String) (fopen : String → Option (List Char))
    (stdin : List Char) :
    main argv fopen stdin
      = match opened_input argv fopen stdin with
        | none => some ⟨1, [], true⟩
        | some fp => run fp := by
  unfold main opened_input
  split_ifs
  · cases fopen (argv.getD 1 "") <;> rfl
  · rfl

theorem read_chunks_eq_nil (n : Nat) (fp : List Char) :
    read_chunks (n + 1) fp = [] ↔ fp = [] := by
  constructor
  · intro h
    by_contra hne
    simp [read_chunks, fgets, hne] at h
  · intro h
    subst h
    exact read_chunks_nil _

theorem nrows_eq_zero_iff (input : List Char) :
    (read_table input).nrows = 0 ↔ input = [] := by
  obtain ⟨hrows, hn, _⟩ := read_table_spec input
  rw [hn, hrows, List.length_map, List.length_eq_zero]
  exact read_chunks_eq_nil 1023 input

/-- C11: on empty input (no line to read) the program writes nothing to
standard output and exits with status 0.  Conversely, whenever at least one
line is read (which is whenever the input is not empty), printing the header
line of row 0 is defined, and the output of every run that has an outcome is
not empty: it is that header line, then the separator line, then the body; such
a run exits with status 0, and a run in which no row has fewer fields than the
first has an outcome. -/
theorem empty_input_gives_empty_output (input : List Char) :
    run [] = some ⟨0, [], false⟩ ∧
    (∀ argv fopen stdin, opened_input argv fopen stdin = some [] →
      main argv fopen stdin = some ⟨0, [], false⟩) ∧
    ((read_table input).nrows = 0 ↔ input = []) ∧
    (0 < (read_table input).nrows →
      print_md_row ((read_table input).rows.getD 0 []) (read_table input).ncols
          (read_table input).col_width
        = some (row_line (read_table input).ncols (read_table input).col_width
            ((read_table input).rows.getD 0 [])) ∧
      ∀ o, run input = some o →
        o.status = 0 ∧ o.stdout ≠ [] ∧
        ∃ body, o.stdout
          = row_line (read_table input).ncols (read_table input).col_width
              ((read_table input).rows.getD 0 [])
            ++ print_md_sep (read_table input).ncols (read_table input).col_width ++ body) ∧
    ((∀ row ∈ (read_table input).rows, (read_table input).ncols ≤ row.length) →
      run input = some ⟨0, (table_lines (read_table input)).flatten, false⟩) := by
  have hempty : run [] = some ⟨0, [], false⟩ := by decide
  refine ⟨hempty, ?_, nrows_eq_zero_iff input, ?_, run_some input⟩
  · intro argv fopen stdin hop
    rw [main_eq, hop]
    exact hempty
  · intro hpos
    have hnc := (read_table_spec input).2.2.2.1
    have hhead := print_md_row_some ((read_table input).rows.getD 0 [])
      (read_table input).ncols (read_table input).col_width (by rw [hnc])
    refine ⟨hhead, ?_⟩
    intro o ho
    unfold run at ho
    simp only at ho
    cases hp : print_table (read_table input) with
    | none => rw [hp] at ho; simp at ho
    | some out =>
      cases hf : free_rows (read_table input) with
      | none => rw [hp, hf] at ho; simp at ho
      | some cells =>
        rw [hp, hf] at ho
        simp only [Option.some.injEq] at ho
        subst ho
        simp only
        unfold print_table at hp
        rw [if_pos hpos, hhead] at hp
        cases hb : print_body (read_table input)
            (List.range' 1 ((read_table input).nrows - 1)) with
        | none => rw [hb] at hp; simp at hp
        | some body =>
          rw [hb] at hp
          simp only [Option.some.injEq] at hp
          subst hp
          refine ⟨trivial, ?_, body, rfl⟩
          simp [row_line]

theorem empty_input_gives_empty_output_witness :
    run "a,b\n".toList = some ⟨0, "| a | b |\n| - | - |\n".toList, false⟩ :=
  ((empty_input_gives_empty_output "a,b\n".toList).2.2.2.2 (by decide)).trans (by decide)

theorem free_rows_eq (t : Table) :
    free_rows t
      = if (freed_cells t).all (fun rc => (lookup t rc.1 rc.2).isSome) then
          some (freed_cells t)
        else none := rfl

/-- C14, the code at two failing inputs.  For the input `a\nb,c\n` the run is
defined, the builder fills the three cells `(0,0)`, `(1,0)`, `(1,1)` and the
release pass frees only `(0,0)` and `(1,0)`: the stored cell `(1,1)`, beyond the
first row's field count, is never released.  For the input `a,b\nc\n` the
builder fills `(0,0)`, `(0,1)`, `(1,0)` and the release pass also passes the
never-stored cell `(1,1)` to `free`. -/
theorem release_pass_misses_and_overreaches :
    run "a\nb,c\n".toList = some ⟨0, "| a |\n| - |\n| b |\n".toList, false⟩ ∧
    stored_cells (read_table "a\nb,c\n".toList) = [(0, 0), (1, 0), (1, 1)] ∧
    free_rows (read_table "a\nb,c\n".toList) = some [(0, 0), (1, 0)] ∧
    freed_cells (read_table "a\nb,c\n".toList) = [(0, 0), (1, 0)] ∧
    lookup (read_table "a\nb,c\n".toList) 1 1 = some "c".toList ∧
    stored_cells (read_table "a,b\nc\n".toList) = [(0, 0), (0, 1), (1, 0)] ∧
    freed_cells (read_table "a,b\nc\n".toList) = [(0, 0), (0, 1), (1, 0), (1, 1)] ∧
    lookup (read_table "a,b\nc\n".toList) 1 1 = none ∧
    free_rows (read_table "a,b\nc\n".toList) = none := by
  decide

/-- When every row has exactly `ncols` fields the release pass frees exactly
the stored cells. -/
theorem freed_cells_eq_stored_cells (t : Table)
    (h : ∀ r, r < t.nrows → (t.rows.getD r []).length = t.ncols) :
    freed_cells t = stored_cells t := by
  unfold freed_cells stored_cells
  rw [List.flatMap_def, List.flatMap_def]
  congr 1
  apply List.map_congr_left
  intro r hr
  rw [h r (by simpa using hr)]

/-! ## Tables built from rows of fields -/

theorem read_row_eq_add_row (t : Table) (line : List Char) :
    read_row t line = add_row t (parse_line line) := rfl

theorem foldl_read_row_eq (ls : List (List Char)) (t : Table) :
    ls.foldl read_row t = (ls.map parse_line).foldl add_row t := by
  rw [List.foldl_map]
  rfl

theorem read_table_eq_table_of_rows (input : List Char) :
    read_table input = table_of_rows (read_table input).rows := by
  rw [(read_table_spec input).1, read_table_eq_foldl, foldl_read_row_eq]
  rfl

theorem foldl_add_row_rows (rows : List (List (List Char))) :
    ∀ t : Table, (rows.foldl add_row t).rows = t.rows ++ rows := by
  induction rows with
  | nil => intro t; simp
  | cons r rows ih =>
    intro t
    rw [List.foldl_cons, ih]
    simp [add_row, store_row_eq]

theorem foldl_add_row_nrows (rows : List (List (List Char))) :
    ∀ t : Table, (rows.foldl add_row t).nrows = t.nrows + rows.length := by
  induction rows with
  | nil => intro t; simp
  | cons r rows ih =>
    intro t
    rw [List.foldl_cons, ih]
    simp [add_row]
    omega

theorem foldl_add_row_ncols_keep (rows : List (List (List Char))) :
    ∀ t : Table, t.nrows ≠ 0 → (rows.foldl add_row t).ncols = t.ncols := by
  induction rows with
  | nil => intro t _; simp
  | cons r rows ih =>
    intro t h
    rw [List.foldl_cons, ih _ (by simp [add_row])]
    simp [add_row, h]

theorem table_of_rows_ncols (rows : List (List (List Char))) :
    (table_of_rows rows).ncols = (rows.getD 0 []).length := by
  unfold table_of_rows
  cases rows with
  | nil => rfl
  | cons r rows =>
    rw [List.foldl_cons, foldl_add_row_ncols_keep _ _ (by simp [add_row])]
    simp [add_row, Table.init]

theorem add_row_col_width (t : Table) (cols : List (List Char))
    (hw : t.col_width.length = MAX_COLS) (hc : cols.length ≤ MAX_COLS) :
    (add_row t cols).col_width.length = MAX_COLS ∧
    ∀ i, (add_row t cols).col_width.getD i 0
      = if i < cols.length then max (t.col_width.getD i 0) (cols.getD i []).length
        else t.col_width.getD i 0 := by
  have := update_widths_spec cols cols.length t.col_width (by rw [hw]; exact hc)
  exact ⟨by rw [← hw]; exact this.1, this.2⟩

theorem foldl_add_row_col_width (rows : List (List (List Char))) :
    ∀ t : Table, t.col_width.length = MAX_COLS → (∀ r ∈ rows, r.length ≤ MAX_COLS) →
      ∀ i, (rows.foldl add_row t).col_width.getD i 0
        = max (t.col_width.getD i 0) (max_field_length rows i) := by
  induction rows with
  | nil => intro t _ _ i; simp [max_field_length]
  | cons r rows ih =>
    intro t hw hr i
    obtain ⟨h1, h2⟩ := add_row_col_width t r hw (hr r (by simp))
    rw [List.foldl_cons, ih (add_row t r) h1 (fun x hx => hr x (by simp [hx])) i, h2 i,
      max_field_length_cons]
    split_ifs
    · rw [max_assoc]
    · rfl

theorem table_of_rows_col_width (rows : List (List (List Char)))
    (hr : ∀ r ∈ rows, r.length ≤ MAX_COLS) (i : Nat) :
    (table_of_rows rows).col_width.getD i 0 = max_field_length rows i := by
  unfold table_of_rows
  rw [foldl_add_row_col_width rows Table.init (by simp [Table.init]) hr i]
  have : Table.init.col_width.getD i 0 = 0 := by
    simp [Table.init, List.getD_eq_getElem?_getD, List.getElem?_replicate]
    split_ifs <;> rfl
  rw [this]
  simp

theorem max_field_length_map_take (rows : List (List (List Char))) (n i : Nat) (hi : i < n) :
    max_field_length (rows.map (List.take n)) i = max_field_length rows i := by
  induction rows with
  | nil => rfl
  | cons r rows ih =>
    rw [List.map_cons, max_field_length_cons, max_field_length_cons, ih]
    have hlen : (i < (r.take n).length) ↔ i < r.length := by
      rw [List.length_take]; omega
    have hget : (r.take n).getD i [] = r.getD i [] := by
      rw [List.getD_eq_getElem?_getD, List.getD_eq_getElem?_getD, List.getElem?_take_of_lt hi]
    by_cases h : i < r.length
    · rw [if_pos (hlen.mpr h), if_pos h, hget]
    · rw [if_neg (fun h2 => h (hlen.mp h2)), if_neg h]

theorem row_line_congr (ncols : Nat) (w w2 : List Nat) (row row2 : List (List Char))
    (hw : ∀ i, i < ncols → w.getD i 0 = w2.getD i 0)
    (hrow : ∀ i, i < ncols → row.getD i [] = row2.getD i []) :
    row_line ncols w row = row_line ncols w2 row2 := by
  unfold row_line
  have : (List.range ncols).map (fun i => cell (w.getD i 0) (row.getD i []))
      = (List.range ncols).map (fun i => cell (w2.getD i 0) (row2.getD i [])) := by
    apply List.map_congr_left
    intro i hi
    rw [hw i (by simpa using hi), hrow i (by simpa using hi)]
  rw [this]

theorem print_md_sep_congr (ncols : Nat) (w w2 : List Nat)
    (hw : ∀ i, i < ncols → w.getD i 0 = w2.getD i 0) :
    print_md_sep ncols w = print_md_sep ncols w2 := by
  unfold print_md_sep
  have : (List.range ncols).map (fun i => printf_sep (w.getD i 0))
      = (List.range ncols).map (fun i => printf_sep (w2.getD i 0)) := by
    apply List.map_congr_left
    intro i hi
    rw [hw i (by simpa using hi)]
  rw [this]

theorem getD_take_of_lt (row : List (List Char)) (n i : Nat) (hi : i < n) :
    (row.take n).getD i [] = row.getD i [] := by
  rw [List.getD_eq_getElem?_getD, List.getD_eq_getElem?_getD, List.getElem?_take_of_lt hi]

theorem table_lines_congr (t t2 : Table) (hnc : t2.ncols = t.ncols)
    (hw : ∀ i, i < t.ncols → t2.col_width.getD i 0 = t.col_width.getD i 0)
    (hrows : t2.rows = t.rows.map (List.take t.ncols)) :
    table_lines t2 = table_lines t := by
  unfold table_lines
  rw [hrows, hnc]
  have hsep := print_md_sep_congr t.ncols t2.col_width t.col_width hw
  have hline : ∀ row : List (List Char),
      row_line t.ncols t2.col_width (row.take t.ncols) = row_line t.ncols t.col_width row :=
    fun row => row_line_congr _ _ _ _ _ hw (fun i hi => getD_take_of_lt row _ i hi)
  cases t.rows with
  | nil => rfl
  | cons r0 rest =>
    simp only [List.map_cons, List.map_map]
    rw [hline r0, hsep]
    congr 2
    apply List.map_congr_left
    intro row _
    exact hline row

/-- C18: fields beyond the first row's field count never influence the output.
For every input in which no row has fewer fields than the first, the table
built is the table of its rows, and the table of the rows cut down to their
first `ncols` fields has the same `ncols`, the same widths for the columns
below `ncols`, and the same printed output, which is the output of the run. -/
theorem extra_fields_do_not_influence_output (input : List Char)
    (hfull : ∀ row ∈ (read_table input).rows, (read_table input).ncols ≤ row.length) :
    read_table input = table_of_rows (read_table input).rows ∧
    (table_of_rows ((read_table input).rows.map (List.take (read_table input).ncols))).ncols
      = (read_table input).ncols ∧
    (∀ i, i < (read_table input).ncols →
      (table_of_rows ((read_table input).rows.map
          (List.take (read_table input).ncols))).col_width.getD i 0
        = (read_table input).col_width.getD i 0) ∧
    print_table (table_of_rows ((read_table input).rows.map (List.take (read_table input).ncols)))
      = print_table (read_table input) ∧
    ∃ out, run input = some ⟨0, out, false⟩ ∧
      print_table (table_of_rows
        ((read_table input).rows.map (List.take (read_table input).ncols))) = some out := by
  obtain ⟨hrows, hn, _, hnc, _, hw⟩ := read_table_spec input
  generalize hT : read_table input = t at *
  have hlenrow : ∀ r ∈ t.rows, r.length ≤ MAX_COLS := by
    intro r hr
    rw [hrows] at hr
    obtain ⟨l, _, rfl⟩ := List.mem_map.mp hr
    exact (length_parse_line l).2
  have hlen2 : ∀ r ∈ t.rows.map (List.take t.ncols), r.length ≤ MAX_COLS := by
    intro r hr
    obtain ⟨r0, hr0, rfl⟩ := List.mem_map.mp hr
    rw [List.length_take]
    have := hlenrow r0 hr0
    omega
  have hnc2 : (table_of_rows (t.rows.map (List.take t.ncols))).ncols = t.ncols := by
    rw [table_of_rows_ncols]
    cases hr : t.rows with
    | nil => rw [hr] at hnc; simpa using hnc.symm
    | cons r0 rest =>
      rw [hr] at hnc
      simp only [List.getD_cons_zero] at hnc
      simp [hnc]
  have hw2 : ∀ i, i < t.ncols →
      (table_of_rows (t.rows.map (List.take t.ncols))).col_width.getD i 0
        = t.col_width.getD i 0 := by
    intro i hi
    rw [table_of_rows_col_width _ hlen2 i, max_field_length_map_take _ _ _ hi, hw i]
  have hrows2 : (table_of_rows (t.rows.map (List.take t.ncols))).rows
      = t.rows.map (List.take t.ncols) := by
    unfold table_of_rows
    rw [foldl_add_row_rows]
    simp [Table.init]
  have hn2 : (table_of_rows (t.rows.map (List.take t.ncols))).nrows
      = (table_of_rows (t.rows.map (List.take t.ncols))).rows.length := by
    rw [hrows2]
    unfold table_of_rows
    rw [foldl_add_row_nrows]
    simp [Table.init]
  have hfull2 : ∀ row ∈ (table_of_rows (t.rows.map (List.take t.ncols))).rows,
      (table_of_rows (t.rows.map (List.take t.ncols))).ncols ≤ row.length := by
    intro row hrow
    rw [hrows2] at hrow
    obtain ⟨r0, hr0, rfl⟩ := List.mem_map.mp hrow
    rw [hnc2, List.length_take]
    have := hfull r0 hr0
    omega
  have hlines : table_lines (table_of_rows (t.rows.map (List.take t.ncols))) = table_lines t :=
    table_lines_congr t _ hnc2 hw2 hrows2
  have hprint : print_table (table_of_rows (t.rows.map (List.take t.ncols)))
      = print_table t := by
    rw [print_table_some _ hn2 hfull2, print_table_some t hn hfull, hlines]
  have hrun := run_some input (by rw [hT]; exact hfull)
  rw [hT] at hrun
  refine ⟨?_, hnc2, hw2, hprint, _, hrun, ?_⟩
  · have := read_table_eq_table_of_rows input
    rw [hT] at this
    exact this
  · rw [hprint, print_table_some t hn hfull]

theorem extra_fields_do_not_influence_output_witness :
    print_table (table_of_rows [["a".toList], ["b".toList]])
      = print_table (read_table "a\nb,cccc\n".toList) ∧
    run "a\nb,cccc\n".toList = some ⟨0, "| a |\n| - |\n| b |\n".toList, false⟩ := by
  have h := extra_fields_do_not_influence_output "a\nb,cccc\n".toList (by decide)
  refine ⟨?_, ?_⟩
  · exact h.2.2.2.1
  · obtain ⟨out, h1, _⟩ := h.2.2.2.2
    rw [h1]
    have : run "a\nb,cccc\n".toList
        = some ⟨0, "| a |\n| - |\n| b |\n".toList, false⟩ := by decide
    rw [h1] at this
    exact this

/-! ## Lines that fill the buffer -/

theorem splitAbs_plain (cs : List Char) (h : ∀ c ∈ cs, c ≠ ',' ∧ c ≠ '"') :
    ∀ (k : Nat) (q : Bool), splitAbs k q cs = [cs] := by
  induction cs with
  | nil => intro k q; cases k <;> rfl
  | cons c cs ih =>
    intro k q
    have hc := h c (by simp)
    have hcs : ∀ x ∈ cs, x ≠ ',' ∧ x ≠ '"' := fun x hx => h x (by simp [hx])
    cases k with
    | zero => rfl
    | succ k =>
      simp only [splitAbs, hc.2, if_false, hc.1, false_and]
      rw [ih hcs]
      rfl

theorem splitAbs_plain_comma (x y : List Char) (k : Nat) (h : ∀ c ∈ x, c ≠ ',' ∧ c ≠ '"') :
    splitAbs (k + 1) false (x ++ ',' :: y) = x :: splitAbs k false y := by
  induction x with
  | nil => simp [splitAbs, comma_ne_quote]
  | cons c x ih =>
    have hc := h c (by simp)
    have hx : ∀ a ∈ x, a ≠ ',' ∧ a ≠ '"' := fun a ha => h a (by simp [ha])
    simp only [List.cons_append, splitAbs, hc.2, if_false, hc.1, false_and]
    show consHead c (splitAbs (k + 1) false (x ++ ',' :: y)) = _
    rw [ih hx]
    rfl

theorem chop_of_not_term (s : List Char) (h : ∀ c ∈ s, c ≠ '\n' ∧ c ≠ '\r') : chop s = s := by
  rcases List.eq_nil_or_concat s with rfl | ⟨g, t, rfl⟩
  · rfl
  · simp only [List.concat_eq_append] at h ⊢
    rw [chop_concat]
    have ht := h t (by simp)
    have : is_term t = false := by
      cases hterm : is_term t with
      | false => rfl
      | true =>
        rcases (is_term_iff t).mp hterm with h1 | h1
        · exact absurd h1 ht.1
        · exact absurd h1 ht.2
    rw [this]
    simp

theorem cut_of_plain (s : List Char) (h : ∀ c ∈ s, c ≠ NUL ∧ c ≠ '\r' ∧ c ≠ '\n') :
    cut s = s := by
  unfold cut
  rw [List.takeWhile_eq_self_iff]
  intro c hc
  obtain ⟨h1, h2, h3⟩ := h c hc
  simp [h1, h2, h3]

/-- A line without comma, quote, terminator or `NUL` is one field. -/
theorem parse_line_plain (s : List Char) (hlen : s.length ≤ MAX_LINE)
    (h : ∀ c ∈ s, c ≠ NUL ∧ c ≠ '\r' ∧ c ≠ '\n' ∧ c ≠ ',' ∧ c ≠ '"') :
    parse_line s = [s] := by
  have hnul : NUL ∉ s := fun hm => (h NUL hm).1 rfl
  rw [parse_line_eq, cut_of_plain s (fun c hc => ⟨(h c hc).1, (h c hc).2.1, (h c hc).2.2.1⟩),
    List.take_of_length_le hlen, split_fields_eq s MAX_COLS hnul,
    splitAbs_plain s (fun c hc => ⟨(h c hc).2.2.2.1, (h c hc).2.2.2.2⟩)]
  rw [if_pos (show [s].length < MAX_COLS by unfold MAX_COLS; simp)]
  simp only [mapLast]
  rw [chop_of_not_term s (fun c hc => ⟨(h c hc).2.2.1, (h c hc).2.1⟩)]

/-- A line of two fields without quote, terminator or `NUL`. -/
theorem parse_line_two_plain (x y : List Char) (hlen : (x ++ ',' :: y).length ≤ MAX_LINE)
    (hx : ∀ c ∈ x, c ≠ NUL ∧ c ≠ '\r' ∧ c ≠ '\n' ∧ c ≠ ',' ∧ c ≠ '"')
    (hy : ∀ c ∈ y, c ≠ NUL ∧ c ≠ '\r' ∧ c ≠ '\n' ∧ c ≠ ',' ∧ c ≠ '"') :
    parse_line (x ++ ',' :: y) = [x, y] := by
  have hall : ∀ c ∈ x ++ ',' :: y, c ≠ NUL ∧ c ≠ '\r' ∧ c ≠ '\n' := by
    intro c hc
    rcases List.mem_append.mp hc with hc | hc
    · exact ⟨(hx c hc).1, (hx c hc).2.1, (hx c hc).2.2.1⟩
    · rcases List.mem_cons.mp hc with rfl | hc
      · exact ⟨by decide, by decide, by decide⟩
      · exact ⟨(hy c hc).1, (hy c hc).2.1, (hy c hc).2.2.1⟩
  have hnul : NUL ∉ x ++ ',' :: y := fun hm => (hall NUL hm).1 rfl
  rw [parse_line_eq, cut_of_plain _ hall, List.take_of_length_le hlen,
    split_fields_eq _ MAX_COLS hnul]
  have hs : splitAbs (MAX_COLS - 1) false (x ++ ',' :: y) = [x, y] := by
    show splitAbs (126 + 1) false (x ++ ',' :: y) = [x, y]
    rw [splitAbs_plain_comma x y 126 (fun c hc => ⟨(hx c hc).2.2.2.1, (hx c hc).2.2.2.2⟩),
      splitAbs_plain y (fun c hc => ⟨(hy c hc).2.2.2.1, (hy c hc).2.2.2.2⟩)]
  rw [hs, if_pos (show [x, y].length < MAX_COLS by unfold MAX_COLS; simp)]
  simp only [mapLast]
  rw [chop_of_not_term y (fun c hc => ⟨(hy c hc).2.2.1, (hy c hc).2.1⟩)]

theorem line_length_append_newline (x : List Char) (hx : '\n' ∉ x) :
    line_length (x ++ ['\n']) = x.length := by
  unfold line_length
  rw [List.takeWhile_append_of_pos (by
    intro c hc
    have : c ≠ '\n' := fun h => hx (h ▸ hc)
    simpa using this)]
  simp

theorem read_chunks_full_buffer_line :
    read_chunks MAX_ROWS (List.replicate 4095 'a' ++ ['\n'])
      = [List.replicate 4095 'a', ['\n']] := by
  have hf : fgets MAX_LINE (List.replicate 4095 'a' ++ ['\n'])
      = some (List.replicate 4095 'a', ['\n']) := by
    have hne : List.replicate 4095 'a' ++ ['\n'] ≠ [] :=
      List.append_ne_nil_of_right_ne_nil _ (List.cons_ne_nil _ _)
    rw [fgets, if_neg hne,
      fgets_read_chunk _ _ _ length_replicate_a newline_not_mem_replicate_a]
  have hf2 : fgets MAX_LINE ['\n'] = some (['\n'], []) := by decide
  show read_chunks (1022 + 1 + 1) _ = _
  rw [read_chunks_cons _ _ _ _ hf, read_chunks_cons _ _ _ _ hf2, read_chunks_nil]

theorem plain_replicate (n : Nat) (a : Char)
    (ha : a ≠ NUL ∧ a ≠ '\r' ∧ a ≠ '\n' ∧ a ≠ ',' ∧ a ≠ '"') :
    ∀ c ∈ List.replicate n a, c ≠ NUL ∧ c ≠ '\r' ∧ c ≠ '\n' ∧ c ≠ ',' ∧ c ≠ '"' := by
  intro c hc
  rw [List.eq_of_mem_replicate hc]
  exact ha

/-- C6, counterexample: the input of one line of 4095 letters and its newline
(a line shorter than `MAX_LINE` characters, no row with fewer fields than the
first) gives a table of two rows, and the output has three lines, not two. -/
theorem full_buffer_line_prints_extra_line :
    (input_lines (List.replicate 4095 'a' ++ ['\n'])).length = 1 ∧
    (input_lines (List.replicate 4095 'a' ++ ['\n'])).length ≤ MAX_ROWS ∧
    (∀ l ∈ input_lines (List.replicate 4095 'a' ++ ['\n']), line_length l < MAX_LINE) ∧
    (∀ row ∈ (read_table (List.replicate 4095 'a' ++ ['\n'])).rows,
      (read_table (List.replicate 4095 'a' ++ ['\n'])).ncols ≤ row.length) ∧
    (read_table (List.replicate 4095 'a' ++ ['\n'])).rows = [[List.replicate 4095 'a'], [[]]] ∧
    ∃ out, run (List.replicate 4095 'a' ++ ['\n']) = some ⟨0, out, false⟩ ∧
      (input_lines out).length = 3 := by
  have hlines : input_lines (List.replicate 4095 'a' ++ ['\n'])
      = [List.replicate 4095 'a' ++ ['\n']] := by
    rw [input_lines_append_line _ _ newline_not_mem_replicate_a]
    rfl
  have hparse : parse_line (List.replicate 4095 'a') = [List.replicate 4095 'a'] :=
    parse_line_plain _ (by rw [List.length_replicate]; decide)
      (plain_replicate 4095 'a' (by decide))
  obtain ⟨hrows, _, _, hnc, _, _⟩ := read_table_spec (List.replicate 4095 'a' ++ ['\n'])
  rw [read_chunks_full_buffer_line] at hrows
  have hrows2 : (read_table (List.replicate 4095 'a' ++ ['\n'])).rows
      = [[List.replicate 4095 'a'], [[]]] := by
    rw [hrows, List.map_cons, List.map_cons, List.map_nil, hparse]
    rfl
  have hnc2 : (read_table (List.replicate 4095 'a' ++ ['\n'])).ncols = 1 := by
    rw [hnc, hrows2]
    rfl
  have hfull : ∀ row ∈ (read_table (List.replicate 4095 'a' ++ ['\n'])).rows,
      (read_table (List.replicate 4095 'a' ++ ['\n'])).ncols ≤ row.length := by
    intro row hrow
    rw [hrows2] at hrow
    rw [hnc2]
    simp only [List.mem_cons, List.mem_singleton, List.not_mem_nil, or_false] at hrow
    rcases hrow with rfl | rfl <;> exact Nat.le_refl 1
  refine ⟨by rw [hlines]; rfl, by rw [hlines]; decide, ?_, hfull, hrows2, _,
    run_some _ hfull, ?_⟩
  · intro l hl
    rw [hlines] at hl
    simp only [List.mem_singleton] at hl
    rw [hl, line_length_append_newline _ newline_not_mem_replicate_a, List.length_replicate]
    decide
  · rw [input_lines_table_lines]
    unfold table_lines
    rw [hrows2]
    rfl

theorem input_lines_newlines_append (n : Nat) (rest : List Char) :
    input_lines (List.replicate n '\n' ++ rest)
      = List.replicate n ['\n'] ++ input_lines rest := by
  induction n with
  | zero => rfl
  | succ n ih =>
    rw [List.replicate_succ, List.cons_append, input_lines, if_pos rfl, ih,
      List.replicate_succ, List.cons_append]

theorem read_chunks_newlines (n : Nat) (rest : List Char) :
    read_chunks n (List.replicate n '\n' ++ rest) = List.replicate n ['\n'] := by
  induction n with
  | zero => rfl
  | succ n ih =>
    have hf : fgets MAX_LINE (List.replicate (n + 1) '\n' ++ rest)
        = some (['\n'], List.replicate n '\n' ++ rest) := by
      rw [List.replicate_succ, List.cons_append, fgets, if_neg (List.cons_ne_nil _ _)]
      show some (fgets_read (4094 + 1) ('\n' :: (List.replicate n '\n' ++ rest))) = _
      rw [fgets_read, if_pos rfl]
    rw [read_chunks_cons _ _ _ _ hf, ih, List.replicate_succ]

theorem max_field_length_empty_rows (n : Nat) :
    max_field_length (List.replicate n [[]]) 0 = 0 := by
  induction n with
  | zero => rfl
  | succ n ih =>
    rw [List.replicate_succ, max_field_length_cons, ih]
    rfl

theorem length_wide_chunk : ('a' :: ',' :: List.replicate 4093 'b').length = MAX_LINE - 1 := by
  rw [List.length_cons, List.length_cons, List.length_replicate]
  rfl

theorem newline_not_mem_wide_chunk : '\n' ∉ 'a' :: ',' :: List.replicate 4093 'b' := by
  intro h
  rcases List.mem_cons.mp h with h | h
  · exact absurd h (by decide)
  · rcases List.mem_cons.mp h with h | h
    · exact absurd h (by decide)
    · exact absurd (List.eq_of_mem_replicate h) (by decide)

theorem parse_wide_chunk :
    parse_line ('a' :: ',' :: List.replicate 4093 'b') = [['a'], List.replicate 4093 'b'] := by
  have := parse_line_two_plain ['a'] (List.replicate 4093 'b')
    (by
      show (['a'] ++ ',' :: List.replicate 4093 'b').length ≤ MAX_LINE
      simp only [List.length_append, List.length_cons, List.length_replicate,
        List.length_nil]
      decide)
    (by
      intro c hc
      rw [List.mem_singleton.mp hc]
      decide)
    (plain_replicate 4093 'b' (by decide))
  exact this

theorem read_chunks_unread_last_line :
    read_chunks MAX_ROWS unread_last_line_input
      = ('a' :: ',' :: List.replicate 4093 'b') :: List.replicate 1023 ['\n'] := by
  have hrest : '\n' :: (List.replicate 1022 '\n' ++ ['z', 'z', '\n'])
      = List.replicate 1023 '\n' ++ ['z', 'z', '\n'] := by
    have h : List.replicate (1022 + 1) '\n' = '\n' :: List.replicate 1022 '\n' :=
      List.replicate_succ _ _
    show _ = List.replicate (1022 + 1) '\n' ++ _
    rw [h]
    rfl
  have hf : fgets MAX_LINE unread_last_line_input
      = some ('a' :: ',' :: List.replicate 4093 'b',
          List.replicate 1023 '\n' ++ ['z', 'z', '\n']) := by
    unfold unread_last_line_input
    rw [hrest, fgets, if_neg (List.append_ne_nil_of_left_ne_nil (List.cons_ne_nil _ _) _),
      fgets_read_chunk _ _ _ length_wide_chunk newline_not_mem_wide_chunk]
  show read_chunks (1023 + 1) _ = _
  rw [read_chunks_cons _ _ _ _ hf, read_chunks_newlines]

theorem input_lines_unread_last_line :
    input_lines unread_last_line_input
      = (('a' :: ',' :: List.replicate 4093 'b') ++ ['\n'])
        :: (List.replicate 1022 ['\n'] ++ [['z', 'z', '\n']]) := by
  unfold unread_last_line_input
  rw [input_lines_append_line _ _ newline_not_mem_wide_chunk, input_lines_newlines_append]
  rfl

/-- C3, counterexample: an input of 1024 lines, each shorter than `MAX_LINE`
characters, whose first line has 4095 characters before its newline.  `fgets`
returns that line without its newline, the newline makes a row of its own, and
the 1024 rows are full before the last line `zz` is read: `col_width[0]` is 1
(from the field `a`), below the length 2 of the field `zz` at index 0 of the
last input row. -/
theorem col_width_misses_unread_line :
    (input_lines unread_last_line_input).length ≤ MAX_ROWS ∧
    (∀ l ∈ input_lines unread_last_line_input, line_length l < MAX_LINE) ∧
    0 < (read_table unread_last_line_input).ncols ∧
    (read_table unread_last_line_input).col_width.getD 0 0 = 1 ∧
    2 ≤ max_field_length ((input_lines unread_last_line_input).map parse_line) 0 ∧
    (read_table unread_last_line_input).col_width.getD 0 0
      ≠ max_field_length ((input_lines unread_last_line_input).map parse_line) 0 := by
  obtain ⟨hrows, _, _, hnc, _, hw⟩ := read_table_spec unread_last_line_input
  rw [read_chunks_unread_last_line, List.map_cons, List.map_replicate, parse_wide_chunk] at hrows
  have hempty : parse_line ['\n'] = [[]] := by decide
  rw [hempty] at hrows
  have hwidth : (read_table unread_last_line_input).col_width.getD 0 0 = 1 := by
    rw [hw 0, hrows, max_field_length_cons, max_field_length_empty_rows]
    rfl
  have hmax : 2 ≤ max_field_length ((input_lines unread_last_line_input).map parse_line) 0 := by
    have hzz : parse_line ['z', 'z', '\n'] = [['z', 'z']] := by decide
    have hmem : [['z', 'z']] ∈ (input_lines unread_last_line_input).map parse_line := by
      rw [input_lines_unread_last_line]
      refine List.mem_map.mpr ⟨['z', 'z', '\n'], ?_, hzz⟩
      exact List.mem_cons_of_mem _ (List.mem_append_right _ (List.mem_singleton.mpr rfl))
    exact le_max_field_length _ 0 _ hmem (by decide)
  refine ⟨?_, ?_, ?_, hwidth, hmax, ?_⟩
  · rw [input_lines_unread_last_line, List.length_cons, List.length_append,
      List.length_replicate]
    decide
  · intro l hl
    rw [input_lines_unread_last_line] at hl
    rcases List.mem_cons.mp hl with rfl | hl
    · rw [line_length_append_newline _ newline_not_mem_wide_chunk, length_wide_chunk]
      decide
    · rcases List.mem_append.mp hl with hl | hl
      · rw [List.eq_of_mem_replicate hl]
        decide
      · rw [List.mem_singleton.mp hl]
        decide
  · rw [hnc, hrows]
    exact Nat.zero_lt_succ 1
  · rw [hwidth]
    omega

end Csv2Table
